import Mathlib

/-!
Verification of the schema-auditor analysis engine against its specification.

The development embeds the constraint-contract data model, the schema checks
(`checkFkIndexes`, `check2nf`, `checkSoftDelete`), the invariant validator,
the audit aggregation, and the SQL-DDL contract builder of the repository as
executable Lean definitions, and proves (or refutes) the frozen claims about
them.  Definitions are translated from the TypeScript source; components of
the repository that are not part of the provided sources (`sortBy`,
`extractCandidateKeys`, `inferFunctionalDependencies`, `check1nf`, `check3nf`)
are modelled from the specification and say so in their doc comments.
-/


/-- Severity of a finding. -/
inductive Severity where
  | info
  | warning
deriving DecidableEq, Repr

/-- Normal-form tag carried by a finding. -/
inductive NormalForm where
  | nf1
  | nf2
  | nf3
  | bcnf
  | schema
deriving DecidableEq, Repr

/-- Closed enum of rule codes, from the report types and the README rule table. -/
inductive RuleCode where
  | NF1_JSON_RELATION_SUSPECTED
  | NF1_LIST_IN_STRING_SUSPECTED
  | NF1_REPEATING_GROUP_SUSPECTED
  | NF2_PARTIAL_DEPENDENCY_SUSPECTED
  | NF2_JOIN_TABLE_DUPLICATED_ATTR_SUSPECTED
  | NF3_VIOLATION
  | BCNF_VIOLATION
  | FK_MISSING_INDEX
  | SOFTDELETE_MISSING_IN_UNIQUE
  | SOFTDELETE_AT_WITHOUT_BY
  | SOFTDELETE_BY_WITHOUT_AT
  | INVARIANT_UNKNOWN_MODEL
  | INVARIANT_UNKNOWN_FIELD
  | INVARIANT_DETERMINANT_NOT_ENFORCED
deriving DecidableEq, Repr

/-- Referential action enum (reportTypes). -/
inductive RefAction where
  | cascade
  | restrict
  | noAction
  | setNull
  | setDefault
deriving DecidableEq, Repr

/-- FieldContract from reportTypes. -/
structure FieldContract where
  name : String
  type : String
  isNullable : Bool
  hasDefault : Bool
  isList : Bool
deriving DecidableEq, Repr

/-- PrimaryKeyConstraint from reportTypes. -/
structure PrimaryKeyConstraint where
  fields : List String
  isComposite : Bool
deriving DecidableEq, Repr

/-- UniqueConstraint from reportTypes. -/
structure UniqueConstraint where
  name : Option String
  fields : List String
  isComposite : Bool
deriving DecidableEq, Repr

/-- IndexConstraint from reportTypes. -/
structure IndexConstraint where
  name : Option String
  fields : List String
deriving DecidableEq, Repr

/-- ForeignKeyConstraint from reportTypes. -/
structure ForeignKeyConstraint where
  fields : List String
  referencedModel : String
  referencedFields : List String
  onDelete : RefAction
  onUpdate : RefAction
deriving DecidableEq, Repr

/-- ModelContract from reportTypes. -/
structure ModelContract where
  name : String
  fields : List FieldContract
  primaryKey : Option PrimaryKeyConstraint
  uniqueConstraints : List UniqueConstraint
  indexes : List IndexConstraint
  foreignKeys : List ForeignKeyConstraint
deriving DecidableEq, Repr

/-- ConstraintContract from reportTypes. -/
structure ConstraintContract where
  models : List ModelContract
deriving DecidableEq, Repr

/-- Finding from reportTypes, with the shape used by every check. -/
structure Finding where
  rule : RuleCode
  severity : Severity
  normalForm : NormalForm
  model : String
  field : Option String
  message : String
  fix : Option String
deriving DecidableEq, Repr

/-- Source tag of a functional dependency or candidate key. -/
inductive FdSource where
  | pk
  | unique
  | fk
  | invariant
deriving DecidableEq, Repr

/-- FunctionalDependency from inferFds. -/
structure FunctionalDependency where
  model : String
  determinant : List String
  dependent : List String
  source : FdSource
deriving DecidableEq, Repr

/-- CandidateKey from computeKeys. -/
structure CandidateKey where
  model : String
  fields : List String
  source : FdSource
deriving DecidableEq, Repr

/-- One declared functional dependency of an invariants file. -/
structure InvariantFd where
  determinant : List String
  dependent : List String
  note : Option String
deriving DecidableEq, Repr

/-- Per-model entry of an invariants file. -/
structure ModelInvariants where
  functionalDependencies : Option (List InvariantFd)
deriving DecidableEq, Repr

/-- An invariants file: model-name/entry pairs in declaration order
(JSON object keys are unique, so the key list is duplicate-free in practice). -/
abbrev InvariantsFile := List (String × ModelInvariants)

/-- Translation of isLeftmostPrefix: fkFields must equal, position by position,
the leading elements of constraintFields. -/
def isLeftmostPrefixOf (fkFields constraintFields : List String) : Bool :=
  if constraintFields.length < fkFields.length then false
  else (fkFields.zip constraintFields).all (fun p => p.1 = p.2)

/-- Translation of isFkCoveredByIndex: the candidate field arrays are the PK
fields (when present), the unique-constraint field lists, and the index field
lists, in that order. -/
def isFkCoveredByIndex (fkFields : List String) (pkFields : Option (List String))
    (uniqueConstraints : List UniqueConstraint) (indexes : List IndexConstraint) : Bool :=
  let allFieldArrays :=
    (match pkFields with
     | some pk => [pk]
     | none => []) ++ uniqueConstraints.map (fun uq => uq.fields) ++ indexes.map (fun ix => ix.fields)
  allFieldArrays.any (fun constraintFields => isLeftmostPrefixOf fkFields constraintFields)

/-- The FK_MISSING_INDEX finding pushed by checkFkIndexes for an uncovered FK. -/
def fkMissingIndexFinding (m : ModelContract) (fk : ForeignKeyConstraint) : Finding :=
  { rule := RuleCode.FK_MISSING_INDEX
    severity := Severity.info
    normalForm := NormalForm.schema
    model := m.name
    field := if fk.fields.length = 1 then fk.fields.head? else none
    message := "Foreign key (" ++ String.intercalate ", " fk.fields ++ ") on \"" ++ m.name
      ++ "\" referencing \"" ++ fk.referencedModel
      ++ "\" is not covered by any index, PK, or unique constraint prefix. Queries joining on this FK may be slow."
    fix := some ("Add @@index([" ++ String.intercalate ", " fk.fields ++ "]) to "
      ++ m.name ++ " for faster joins and cascade operations.") }

/-- Translation of checkFkIndexes: iterate models and their foreign keys,
pushing a finding for every FK not covered by a PK, unique, or index. -/
def checkFkIndexes (contract : ConstraintContract) : List Finding :=
  contract.models.foldl
    (fun findings m =>
      m.foreignKeys.foldl
        (fun findings fk =>
          findings ++
            (if isFkCoveredByIndex fk.fields (m.primaryKey.map (fun pk => pk.fields))
                m.uniqueConstraints m.indexes
             then []
             else [fkMissingIndexFinding m fk]))
        findings)
    []

/-- The soft-delete field lookup of checkSoftDelete: the first field named
deleted_at or deletedAt whose type is DateTime. -/
def softDeleteFieldOf (m : ModelContract) : Option FieldContract :=
  m.fields.find? (fun f =>
    (f.name = "deleted_at" || f.name = "deletedAt") && f.type = "DateTime")

/-- The SOFTDELETE_MISSING_IN_UNIQUE finding pushed by checkSoftDelete. -/
def softDeleteMissingFinding (m : ModelContract) (sdName : String) (uq : UniqueConstraint) : Finding :=
  { rule := RuleCode.SOFTDELETE_MISSING_IN_UNIQUE
    severity := Severity.warning
    normalForm := NormalForm.schema
    model := m.name
    field := some sdName
    message := "Unique constraint (" ++ String.intercalate ", " uq.fields ++ ") on \"" ++ m.name
      ++ "\" does not include soft-delete field \"" ++ sdName
      ++ "\". Deleted rows may conflict with active records."
    fix := some ("Add " ++ sdName ++ " to this unique constraint: @@unique(["
      ++ String.intercalate ", " uq.fields ++ ", " ++ sdName ++ "])") }

/-- Translation of checkSoftDelete: for each model with a soft-delete field,
flag every unique constraint that does not contain it. -/
def checkSoftDelete (contract : ConstraintContract) : List Finding :=
  contract.models.foldl
    (fun findings m =>
      match softDeleteFieldOf m with
      | none => findings
      | some sdf =>
        m.uniqueConstraints.foldl
          (fun findings uq =>
            findings ++
              (if sdf.name ∈ uq.fields then [] else [softDeleteMissingFinding m sdf.name uq]))
          findings)
    []

/-- Modelled from the spec: computeKeys.ts is not among the provided sources.
Spec 4.1: every candidate key is one per declared primary key (source pk) and
one per unique constraint (source unique), each restating the declared
ordered field list; nothing further is inferred. -/
def extractCandidateKeys (contract : ConstraintContract) (modelName : String) : List CandidateKey :=
  match contract.models.find? (fun mdl => mdl.name = modelName) with
  | none => []
  | some m =>
    (match m.primaryKey with
     | some pk => [{ model := m.name, fields := pk.fields, source := FdSource.pk }]
     | none => []) ++
      m.uniqueConstraints.map (fun uc =>
        { model := m.name, fields := uc.fields, source := FdSource.unique })

/-- The code-side proper-subset test of checkPartialDependency:
determinant strictly shorter than the PK and every determinant field a PK field. -/
def isProperSubsetOfPk (determinant pkFields : List String) : Bool :=
  determinant.length < pkFields.length && determinant.all (fun f => f ∈ pkFields)

/-- The NF2_PARTIAL_DEPENDENCY_SUSPECTED finding pushed by checkPartialDependency. -/
def partialDependencyFinding (m : ModelContract) (fd : FunctionalDependency) : Finding :=
  { rule := RuleCode.NF2_PARTIAL_DEPENDENCY_SUSPECTED
    severity := Severity.warning
    normalForm := NormalForm.nf2
    model := m.name
    field := none
    message := "Composite-key model \"" ++ m.name ++ "\" has FK fields ("
      ++ String.intercalate ", " fd.determinant
      ++ ") that are a proper subset of the primary key. Non-key attributes may depend on this subset rather than the full key, which would violate 2NF."
    fix := some ("Extract fields that depend on (" ++ String.intercalate ", " fd.determinant
      ++ ") into their own model.") }

/-- Translation of checkPartialDependency: in a composite-key model with
non-key fields, push one finding per fk-sourced FD whose determinant passes
the proper-subset test. -/
def checkPartialDependency (m : ModelContract) (pkFields : List String)
    (fds : List FunctionalDependency) : List Finding :=
  let hasNonKeyFields := m.fields.any (fun f => !(f.name ∈ pkFields : Bool))
  if !hasNonKeyFields then []
  else
    let fkFds := fds.filter (fun fd => fd.model = m.name && fd.source = FdSource.fk)
    (fkFds.filter (fun fd => isProperSubsetOfPk fd.determinant pkFields)).map
      (fun fd => partialDependencyFinding m fd)

/-- The NF2_JOIN_TABLE_DUPLICATED_ATTR_SUSPECTED finding pushed by
checkJoinTableDuplicatedAttr. -/
def joinTableFinding (m : ModelContract) (extraFields : List String) : Finding :=
  { rule := RuleCode.NF2_JOIN_TABLE_DUPLICATED_ATTR_SUSPECTED
    severity := Severity.warning
    normalForm := NormalForm.nf2
    model := m.name
    field := none
    message := "Join table \"" ++ m.name ++ "\" has extra attributes ["
      ++ String.intercalate ", " extraFields
      ++ "] beyond its composite key. Consider whether this should be a first-class entity."
    fix := some ("Add a dedicated @id to " ++ m.name ++ " and treat it as a first-class entity.") }

/-- Translation of checkJoinTableDuplicatedAttr: if every PK field is also an
FK field and there are fields outside both, push one finding listing them. -/
def checkJoinTableDuplicatedAttr (m : ModelContract) (pkFields : List String) : List Finding :=
  let fkFieldSets := (m.foreignKeys.map (fun fk => fk.fields)).flatten
  let allPkFieldsAreFk := pkFields.all (fun f => f ∈ fkFieldSets)
  if !allPkFieldsAreFk then []
  else
    let extraFields := (m.fields.map (fun f => f.name)).filter
      (fun nm => !(nm ∈ pkFields : Bool) && !(nm ∈ fkFieldSets : Bool))
    if 0 < extraFields.length then [joinTableFinding m extraFields] else []

/-- Translation of check2nf: run the two heuristics on every model whose
candidate keys contain a pk-sourced key with more than one field. -/
def check2nf (contract : ConstraintContract) (fds : List FunctionalDependency) : List Finding :=
  contract.models.foldl
    (fun findings m =>
      match (extractCandidateKeys contract m.name).find?
          (fun k => k.source = FdSource.pk && 1 < k.fields.length) with
      | some compositePk =>
        findings ++ checkPartialDependency m compositePk.fields fds
          ++ checkJoinTableDuplicatedAttr m compositePk.fields
      | none => findings)
    []

/-- First-occurrence deduplication, matching iteration over a JS Set built
from a spread of the listed elements. -/
def setDedup : List String → List String
  | [] => []
  | a :: rest => a :: (setDedup rest).filter (fun x => x ≠ a)

/-- The INVARIANT_UNKNOWN_MODEL finding of validateInvariantsAgainstContract. -/
def unknownModelFinding (modelName : String) : Finding :=
  { rule := RuleCode.INVARIANT_UNKNOWN_MODEL
    severity := Severity.warning
    normalForm := NormalForm.nf3
    model := modelName
    field := none
    message := "Invariants reference model \"" ++ modelName
      ++ "\" which does not exist in the schema."
    fix := some ("Update the invariants file to remove or rename model " ++ modelName ++ ".") }

/-- The INVARIANT_UNKNOWN_FIELD finding of validateInvariantsAgainstContract. -/
def unknownFieldFinding (modelName fieldName : String) : Finding :=
  { rule := RuleCode.INVARIANT_UNKNOWN_FIELD
    severity := Severity.warning
    normalForm := NormalForm.nf3
    model := modelName
    field := some fieldName
    message := "Invariants reference field \"" ++ fieldName
      ++ "\" which does not exist in model \"" ++ modelName ++ "\"."
    fix := some ("Update the invariants file to remove or rename field " ++ fieldName
      ++ " in model " ++ modelName ++ ".") }

/-- Translation of validateInvariantsAgainstContract: unknown models get one
finding each (and their FDs are skipped); for each FD of a known model, the
de-duplicated union of determinant and dependent is checked against the model
field-name set, one finding per missing name.  Model names are unique in a
contract, so first-match lookup coincides with the Map built in the source. -/
def validateInvariantsAgainstContract (invariants : InvariantsFile)
    (contract : ConstraintContract) : List Finding :=
  invariants.foldl
    (fun findings entry =>
      match contract.models.find? (fun mdl => mdl.name = entry.1) with
      | none => findings ++ [unknownModelFinding entry.1]
      | some model =>
        match entry.2.functionalDependencies with
        | none => findings
        | some fds =>
          fds.foldl
            (fun findings fd =>
              findings ++
                ((setDedup (fd.determinant ++ fd.dependent)).filter
                    (fun f => !(f ∈ model.fields.map (fun fc => fc.name) : Bool))).map
                  (fun f => unknownFieldFinding entry.1 f))
            findings)
    []

/-- The candidate covering constraints named by the spec: the owning model's
primary key, its unique constraints, and its plain indexes. -/
def specCoveringFieldLists (m : ModelContract) : List (List String) :=
  (match m.primaryKey with
   | some pk => [pk.fields]
   | none => []) ++ m.uniqueConstraints.map (fun uq => uq.fields)
    ++ m.indexes.map (fun ix => ix.fields)

/-- Spec-side coverage: the FK field list equals, element for element, the
first N fields of some covering constraint, N being the FK field count. -/
def fkCoveredSpec (m : ModelContract) (fk : ForeignKeyConstraint) : Bool :=
  (specCoveringFieldLists m).any (fun cf => cf.take fk.fields.length = fk.fields)

/-- Witness data: an uncovered single-field FK on Post referencing User. -/
def w10Fk : ForeignKeyConstraint :=
  { fields := ["authorId"], referencedModel := "User", referencedFields := ["id"]
    onDelete := RefAction.cascade, onUpdate := RefAction.cascade }

/-- Witness data: the Post model owning the uncovered FK. -/
def w10Model : ModelContract :=
  { name := "Post"
    fields := [{ name := "authorId", type := "Int", isNullable := false, hasDefault := false, isList := false },
      { name := "id", type := "Int", isNullable := false, hasDefault := true, isList := false },
      { name := "title", type := "String", isNullable := false, hasDefault := false, isList := false }]
    primaryKey := some { fields := ["id"], isComposite := false }
    uniqueConstraints := []
    indexes := []
    foreignKeys := [w10Fk] }

/-- Witness data: one-model contract for the FK finding-shape claim. -/
def w10Contract : ConstraintContract := { models := [w10Model] }

/-- Per-model contribution of checkSoftDelete. -/
def softDeleteModelFindings (m : ModelContract) : List Finding :=
  match softDeleteFieldOf m with
  | none => []
  | some sdf =>
    (m.uniqueConstraints.filter (fun uq => !(sdf.name ∈ uq.fields : Bool))).map
      (softDeleteMissingFinding m sdf.name)

/-- Spec-side soft-delete field: a DateTime field named deleted_at or deletedAt. -/
def isSoftDeleteFieldSpec (f : FieldContract) : Prop :=
  (f.name = "deleted_at" ∨ f.name = "deletedAt") ∧ f.type = "DateTime"

instance (f : FieldContract) : Decidable (isSoftDeleteFieldSpec f) := by
  unfold isSoftDeleteFieldSpec
  infer_instance

/-- Witness data: the email unique constraint of the soft-delete witness. -/
def w8Uq : UniqueConstraint := { name := none, fields := ["email"], isComposite := false }

/-- Witness data: the soft-delete witness field. -/
def w8Sd : FieldContract :=
  { name := "deleted_at", type := "DateTime", isNullable := true, hasDefault := false, isList := false }

/-- Witness data: a User model with a deleted_at field and a unique on email. -/
def w8Model : ModelContract :=
  { name := "User"
    fields := [w8Sd,
      { name := "email", type := "String", isNullable := false, hasDefault := false, isList := false },
      { name := "id", type := "Int", isNullable := false, hasDefault := true, isList := false }]
    primaryKey := some { fields := ["id"], isComposite := false }
    uniqueConstraints := [w8Uq]
    indexes := []
    foreignKeys := [] }

/-- Witness data: one-model contract for the soft-delete claim. -/
def w8Contract : ConstraintContract := { models := [w8Model] }

/-- The soft-delete-pairing fixture contract (soft-delete-pairing.sql):
AuditLog has deleted_at without deleted_by, Comment has deleted_by without
deleted_at, Article has both, Tag has neither. -/
def c3PairingContract : ConstraintContract :=
  { models := [
      { name := "Article"
        fields := [
          { name := "deleted_at", type := "DateTime", isNullable := true, hasDefault := false, isList := false },
          { name := "deleted_by", type := "String", isNullable := true, hasDefault := false, isList := false },
          { name := "id", type := "Int", isNullable := false, hasDefault := true, isList := false },
          { name := "title", type := "String", isNullable := false, hasDefault := false, isList := false }]
        primaryKey := some { fields := ["id"], isComposite := false }
        uniqueConstraints := []
        indexes := []
        foreignKeys := [] },
      { name := "AuditLog"
        fields := [
          { name := "action", type := "String", isNullable := false, hasDefault := false, isList := false },
          { name := "deleted_at", type := "DateTime", isNullable := true, hasDefault := false, isList := false },
          { name := "id", type := "Int", isNullable := false, hasDefault := true, isList := false }]
        primaryKey := some { fields := ["id"], isComposite := false }
        uniqueConstraints := []
        indexes := []
        foreignKeys := [] },
      { name := "Comment"
        fields := [
          { name := "deleted_by", type := "String", isNullable := true, hasDefault := false, isList := false },
          { name := "id", type := "Int", isNullable := false, hasDefault := true, isList := false },
          { name := "text", type := "String", isNullable := false, hasDefault := false, isList := false }]
        primaryKey := some { fields := ["id"], isComposite := false }
        uniqueConstraints := []
        indexes := []
        foreignKeys := [] },
      { name := "Tag"
        fields := [
          { name := "id", type := "Int", isNullable := false, hasDefault := true, isList := false },
          { name := "name", type := "String", isNullable := false, hasDefault := false, isList := false }]
        primaryKey := some { fields := ["id"], isComposite := false }
        uniqueConstraints := [{ name := none, fields := ["name"], isComposite := false }]
        indexes := []
        foreignKeys := [] }] }

/-- Per-entry contribution of validateInvariantsAgainstContract. -/
def entryFindings (contract : ConstraintContract) (entry : String × ModelInvariants) : List Finding :=
  match contract.models.find? (fun mdl => mdl.name = entry.1) with
  | none => [unknownModelFinding entry.1]
  | some model =>
    match entry.2.functionalDependencies with
    | none => []
    | some fds =>
      fds.flatMap (fun fd =>
        ((setDedup (fd.determinant ++ fd.dependent)).filter
            (fun f => !(f ∈ model.fields.map (fun fc => fc.name) : Bool))).map
          (fun f => unknownFieldFinding entry.1 f))

/-- Witness data: the User model validated against the invariants file. -/
def w9Model : ModelContract :=
  { name := "User"
    fields := [
      { name := "email", type := "String", isNullable := false, hasDefault := false, isList := false },
      { name := "id", type := "Int", isNullable := false, hasDefault := true, isList := false },
      { name := "name", type := "String", isNullable := true, hasDefault := false, isList := false }]
    primaryKey := some { fields := ["id"], isComposite := false }
    uniqueConstraints := [{ name := none, fields := ["email"], isComposite := false }]
    indexes := []
    foreignKeys := [] }

/-- Witness data: the contract holding the User model. -/
def w9Contract : ConstraintContract := { models := [w9Model] }

/-- Witness data: the FD referencing the missing field ghost in both roles. -/
def w9Fds : List InvariantFd := [{ determinant := ["ghost"], dependent := ["ghost"], note := none }]

/-- Witness data: the invariants entry for User. -/
def w9Entry : ModelInvariants := { functionalDependencies := some w9Fds }

/-- Witness data: the one-entry invariants file. -/
def w9Invs : InvariantsFile := [("User", w9Entry)]

/-- The User contract for the determinant-enforcement evaluation. -/
def c2Contract : ConstraintContract := { models := [w9Model] }

/-- The declared User FD whose determinant, the field set consisting of name,
matches no primary key or unique constraint of User. -/
def c2Entry : ModelInvariants :=
  { functionalDependencies :=
      some [{ determinant := ["name"], dependent := ["email"], note := none }] }

/-- An invariants file declaring the unenforced-determinant FD on User. -/
def c2Invs : InvariantsFile := [("User", c2Entry)]

/-- Per-model contribution of check2nf. -/
def check2nfModelFindings (contract : ConstraintContract) (fds : List FunctionalDependency)
    (m : ModelContract) : List Finding :=
  match (extractCandidateKeys contract m.name).find?
      (fun k => k.source = FdSource.pk && 1 < k.fields.length) with
  | some compositePk =>
    checkPartialDependency m compositePk.fields fds ++ checkJoinTableDuplicatedAttr m compositePk.fields
  | none => []

/-- Spec-side qualification for a partial-dependency finding: an fk-sourced FD
of the model whose determinant is a proper, non-empty subset of the PK fields. -/
def fdQualifiesSpec (modelName : String) (pkFields : List String)
    (fd : FunctionalDependency) : Prop :=
  fd.model = modelName ∧ fd.source = FdSource.fk ∧ fd.determinant ≠ [] ∧
    fd.determinant.toFinset ⊂ pkFields.toFinset

instance (modelName : String) (pkFields : List String) (fd : FunctionalDependency) :
    Decidable (fdQualifiesSpec modelName pkFields fd) := by
  unfold fdQualifiesSpec
  infer_instance

/-- Witness data: the Enrollment model with composite PK and two FKs. -/
def w6Enrollment : ModelContract :=
  { name := "Enrollment"
    fields := [
      { name := "courseId", type := "Int", isNullable := false, hasDefault := false, isList := false },
      { name := "enrolledAt", type := "DateTime", isNullable := false, hasDefault := true, isList := false },
      { name := "grade", type := "String", isNullable := false, hasDefault := false, isList := false },
      { name := "studentId", type := "Int", isNullable := false, hasDefault := false, isList := false }]
    primaryKey := some { fields := ["studentId", "courseId"], isComposite := true }
    uniqueConstraints := []
    indexes := []
    foreignKeys := [
      { fields := ["courseId"], referencedModel := "Course", referencedFields := ["id"]
        onDelete := RefAction.noAction, onUpdate := RefAction.noAction },
      { fields := ["studentId"], referencedModel := "Student", referencedFields := ["id"]
        onDelete := RefAction.noAction, onUpdate := RefAction.noAction }] }

/-- Witness data: the contract around Enrollment. -/
def w6Contract : ConstraintContract :=
  { models := [
      { name := "Course"
        fields := [
          { name := "id", type := "Int", isNullable := false, hasDefault := true, isList := false },
          { name := "title", type := "String", isNullable := false, hasDefault := false, isList := false }]
        primaryKey := some { fields := ["id"], isComposite := false }
        uniqueConstraints := []
        indexes := []
        foreignKeys := [] },
      w6Enrollment,
      { name := "Student"
        fields := [
          { name := "id", type := "Int", isNullable := false, hasDefault := true, isList := false },
          { name := "name", type := "String", isNullable := false, hasDefault := false, isList := false }]
        primaryKey := some { fields := ["id"], isComposite := false }
        uniqueConstraints := []
        indexes := []
        foreignKeys := [] }] }

/-- Witness data: the fk-sourced FDs of the Enrollment contract. -/
def w6Fds : List FunctionalDependency :=
  [{ model := "Enrollment", determinant := ["courseId"], dependent := ["Course.id"]
     source := FdSource.fk },
   { model := "Enrollment", determinant := ["studentId"], dependent := ["Student.id"]
     source := FdSource.fk }]

/-- Witness data: a PostTag join table carrying an extra grade attribute. -/
def w7PostTag : ModelContract :=
  { name := "PostTag"
    fields := [
      { name := "grade", type := "String", isNullable := false, hasDefault := false, isList := false },
      { name := "postId", type := "Int", isNullable := false, hasDefault := false, isList := false },
      { name := "tagId", type := "Int", isNullable := false, hasDefault := false, isList := false }]
    primaryKey := some { fields := ["postId", "tagId"], isComposite := true }
    uniqueConstraints := []
    indexes := []
    foreignKeys := [
      { fields := ["postId"], referencedModel := "Post", referencedFields := ["id"]
        onDelete := RefAction.noAction, onUpdate := RefAction.noAction },
      { fields := ["tagId"], referencedModel := "Tag", referencedFields := ["id"]
        onDelete := RefAction.noAction, onUpdate := RefAction.noAction }] }

/-- Witness data: one-model contract around the PostTag join table. -/
def w7Contract : ConstraintContract := { models := [w7PostTag] }

/-- Translation of invariantsToFds (src/core/invariants/parse.ts): one
invariant-sourced FD per declared entry, determinant and dependent verbatim. -/
def invariantsToFds (invariants : InvariantsFile) : List FunctionalDependency :=
  invariants.foldl
    (fun fds entry =>
      match entry.2.functionalDependencies with
      | none => fds
      | some l =>
        fds ++ l.map (fun fd =>
          { model := entry.1, determinant := fd.determinant, dependent := fd.dependent
            source := FdSource.invariant }))
    []

/-- Modelled from the spec: inferFds.ts is not among the provided sources.
Spec 4.2: pk determines every other field when such fields exist; each unique
constraint determines every other field; each foreign key determines the
referenced fields as Model.field tokens; FDs with empty dependents are
omitted. -/
def inferFunctionalDependencies (contract : ConstraintContract) : List FunctionalDependency :=
  contract.models.flatMap (fun m =>
    (match m.primaryKey with
     | some pk =>
       (fun others =>
         if others.isEmpty then []
         else [{ model := m.name, determinant := pk.fields, dependent := others
                 source := FdSource.pk }])
         ((m.fields.map (fun f => f.name)).filter (fun n => !(n ∈ pk.fields : Bool)))
     | none => [])
    ++ m.uniqueConstraints.flatMap (fun uc =>
        (fun others =>
          if others.isEmpty then []
          else [{ model := m.name, determinant := uc.fields, dependent := others
                  source := FdSource.unique }])
          ((m.fields.map (fun f => f.name)).filter (fun n => !(n ∈ uc.fields : Bool))))
    ++ m.foreignKeys.flatMap (fun fk =>
        (fun dep =>
          if dep.isEmpty then []
          else [{ model := m.name, determinant := fk.fields, dependent := dep
                  source := FdSource.fk }])
          (fk.referencedFields.map (fun rf => fk.referencedModel ++ "." ++ rf))))

/-- Strip a trailing integer suffix from a field name (repeating-group base),
working on the character list so the kernel can evaluate it. -/
def stripTrailingDigits (s : String) : String :=
  String.mk ((s.data.reverse.dropWhile Char.isDigit).reverse)

/-- Character-list based suffix test, kernel-evaluable. -/
def strEndsWith (s tail : String) : Bool :=
  tail.data.isSuffixOf s.data

/-- Modelled from the spec: check1nf.ts is not among the provided sources.
Spec 4.3, first rule: one NF1_JSON_RELATION_SUSPECTED finding per Json field. -/
def nf1JsonFindings (m : ModelContract) : List Finding :=
  (m.fields.filter (fun f => f.type = "Json")).map (fun f =>
    { rule := RuleCode.NF1_JSON_RELATION_SUSPECTED
      severity := Severity.info
      normalForm := NormalForm.nf1
      model := m.name
      field := some f.name
      message := "Field " ++ f.name ++ " stores JSON that may hide a relational structure."
      fix := some ("Consider extracting " ++ f.name ++ " into a related model.") })

/-- Modelled from the spec: check1nf.ts is not among the provided sources.
Spec 4.3, second rule: one NF1_LIST_IN_STRING_SUSPECTED finding per
String-typed field whose name matches the list-naming heuristic. -/
def nf1ListInStringFindings (m : ModelContract) : List Finding :=
  (m.fields.filter (fun f =>
      f.type = "String" && (strEndsWith f.name "Ids" || strEndsWith f.name "List"))).map (fun f =>
    { rule := RuleCode.NF1_LIST_IN_STRING_SUSPECTED
      severity := Severity.info
      normalForm := NormalForm.nf1
      model := m.name
      field := some f.name
      message := "Field " ++ f.name ++ " looks like it stores a delimited list in a string."
      fix := some ("Extract the values of " ++ f.name ++ " into a separate model.") })

/-- Modelled from the spec: check1nf.ts is not among the provided sources.
Spec 4.3, third rule: group fields by their name with a trailing integer
suffix stripped; one NF1_REPEATING_GROUP_SUSPECTED finding per model per base
name with at least two members. -/
def nf1RepeatingGroupFindings (m : ModelContract) : List Finding :=
  ((setDedup (m.fields.map (fun f => stripTrailingDigits f.name))).filter
      (fun b => 2 ≤ (m.fields.filter (fun f => stripTrailingDigits f.name = b)).length)).map
    (fun b =>
      { rule := RuleCode.NF1_REPEATING_GROUP_SUSPECTED
        severity := Severity.info
        normalForm := NormalForm.nf1
        model := m.name
        field := none
        message := "Fields " ++ String.intercalate ", "
          ((m.fields.filter (fun f => stripTrailingDigits f.name = b)).map (fun f => f.name))
          ++ " form a numbered repeating group with base " ++ b ++ "."
        fix := some ("Extract the " ++ b ++ " group into a related model.") })

/-- Modelled from the spec: check1nf.ts is not among the provided sources.
Spec 4.3: the three structural 1NF heuristics per model. -/
def check1nf (contract : ConstraintContract) : List Finding :=
  contract.models.flatMap (fun m =>
    nf1JsonFindings m ++ nf1ListInStringFindings m ++ nf1RepeatingGroupFindings m)

/-- The NF3_VIOLATION finding of the spec-modelled check3nf. -/
def nf3ViolationFinding (modelName : String) (fd : FunctionalDependency) : Finding :=
  { rule := RuleCode.NF3_VIOLATION
    severity := Severity.warning
    normalForm := NormalForm.nf3
    model := modelName
    field := none
    message := "Non-key fields " ++ String.intercalate ", " fd.determinant
      ++ " determine non-key fields " ++ String.intercalate ", " fd.dependent ++ "."
    fix := some "Extract the dependent fields into a model keyed by the determinant." }

/-- The BCNF_VIOLATION finding of the spec-modelled check3nf. -/
def bcnfViolationFinding (modelName : String) (fd : FunctionalDependency) : Finding :=
  { rule := RuleCode.BCNF_VIOLATION
    severity := Severity.warning
    normalForm := NormalForm.bcnf
    model := modelName
    field := none
    message := "Determinant " ++ String.intercalate ", " fd.determinant
      ++ " is not a candidate key."
    fix := some "Make the determinant a candidate key or normalize the model." }

/-- Modelled from the spec: check3nf.ts is not among the provided sources.
Spec 4.5: NF3_VIOLATION when both sides of an FD avoid all candidate-key
fields; BCNF_VIOLATION when the determinant equals no candidate key as a set;
per the spec note both checks examine the invariant-declared FDs. -/
def check3nf (contract : ConstraintContract) (fds : List FunctionalDependency) : List Finding :=
  contract.models.flatMap (fun m =>
    (fds.filter (fun fd => fd.model = m.name && fd.source = FdSource.invariant)).flatMap
      (fun fd =>
        (if fd.determinant.all
              (fun f => !(f ∈ (extractCandidateKeys contract m.name).flatMap
                (fun k => k.fields) : Bool))
            && fd.dependent.all
              (fun f => !(f ∈ (extractCandidateKeys contract m.name).flatMap
                (fun k => k.fields) : Bool))
         then [nf3ViolationFinding m.name fd]
         else [])
        ++ (if !((extractCandidateKeys contract m.name).any
              (fun k => k.fields.toFinset = fd.determinant.toFinset))
            then [bcnfViolationFinding m.name fd]
            else [])))

/-- Translation of the audit aggregation (src/index.ts lines 64 to 84): infer
schema FDs, merge invariant FDs when an invariants file is supplied, and
concatenate the findings of check1nf, check2nf, check3nf, checkSoftDelete and
the invariant validation.  checkFkIndexes is not invoked. -/
def auditFindings (contract : ConstraintContract) (invariants : Option InvariantsFile) :
    List Finding :=
  match invariants with
  | none =>
    check1nf contract ++ check2nf contract (inferFunctionalDependencies contract)
      ++ check3nf contract (inferFunctionalDependencies contract)
      ++ checkSoftDelete contract
  | some invs =>
    check1nf contract
      ++ check2nf contract (inferFunctionalDependencies contract ++ invariantsToFds invs)
      ++ check3nf contract (inferFunctionalDependencies contract ++ invariantsToFds invs)
      ++ checkSoftDelete contract
      ++ validateInvariantsAgainstContract invs contract

/-- The basic User/Post contract with an uncovered FK on Post.authorId. -/
def c1Contract : ConstraintContract :=
  { models := [
      { name := "Post"
        fields := [
          { name := "authorId", type := "Int", isNullable := false, hasDefault := false, isList := false },
          { name := "id", type := "Int", isNullable := false, hasDefault := true, isList := false },
          { name := "title", type := "String", isNullable := false, hasDefault := false, isList := false }]
        primaryKey := some { fields := ["id"], isComposite := false }
        uniqueConstraints := []
        indexes := []
        foreignKeys := [
          { fields := ["authorId"], referencedModel := "User", referencedFields := ["id"]
            onDelete := RefAction.noAction, onUpdate := RefAction.noAction }] },
      { name := "User"
        fields := [
          { name := "email", type := "String", isNullable := false, hasDefault := false, isList := false },
          { name := "id", type := "Int", isNullable := false, hasDefault := true, isList := false },
          { name := "name", type := "String", isNullable := true, hasDefault := false, isList := false }]
        primaryKey := some { fields := ["id"], isComposite := false }
        uniqueConstraints := [{ name := none, fields := ["email"], isComposite := false }]
        indexes := []
        foreignKeys := [] }] }

/-- Lexicographic comparison of character lists by code point, the order
JavaScript string comparison induces for the ASCII names and keys sorted here. -/
def charListLe : List Char → List Char → Bool
  | [], _ => true
  | _ :: _, [] => false
  | a :: as, b :: bs =>
    if a.toNat < b.toNat then true
    else if b.toNat < a.toNat then false
    else charListLe as bs

/-- String comparison on the underlying character lists. -/
def strLe (a b : String) : Bool := charListLe a.data b.data

/-- Modelled from the spec: util/index.ts (sortBy) is not among the provided
sources.  Spec 3 and the design notes require explicit, stable sorting by a
string key (JavaScript Array.prototype.sort is stable); a stable insertion
sort by the key realizes exactly that. -/
def sortBy {α : Type} (key : α → String) (l : List α) : List α :=
  List.insertionSort (fun a b => strLe (key a) (key b) = true) l

/-- The concatenated field-list sort key used for constraints (fields.join). -/
def joinKey (fs : List String) : String := String.intercalate "," fs

/-- Kernel-evaluable uppercase used by the type normalisation. -/
def strUpper (s : String) : String := String.mk (s.data.map Char.toUpper)

/-- Kernel-evaluable lowercase used by the action mapping. -/
def strLower (s : String) : String := String.mk (s.data.map Char.toLower)

/-- Translation of SERIAL_TYPES. -/
def isSerialType (t : String) : Bool :=
  strUpper t = "SERIAL" || strUpper t = "BIGSERIAL" || strUpper t = "SMALLSERIAL"

/-- Translation of TYPE_MAP and normalizeType: canonicalize the uppercase
vendor type, returning the input unchanged when unmapped. -/
def normalizeType (pgType : String) : String :=
  match strUpper pgType with
  | "TEXT" => "String"
  | "VARCHAR" => "String"
  | "CHAR" => "String"
  | "CHARACTER VARYING" => "String"
  | "CHARACTER" => "String"
  | "UUID" => "String"
  | "JSON" => "Json"
  | "JSONB" => "Json"
  | "TIMESTAMP" => "DateTime"
  | "TIMESTAMPTZ" => "DateTime"
  | "TIMESTAMP WITH TIME ZONE" => "DateTime"
  | "TIMESTAMP WITHOUT TIME ZONE" => "DateTime"
  | "DATE" => "DateTime"
  | "INT" => "Int"
  | "INTEGER" => "Int"
  | "INT4" => "Int"
  | "SERIAL" => "Int"
  | "SMALLINT" => "Int"
  | "SMALLSERIAL" => "Int"
  | "BIGINT" => "BigInt"
  | "BIGSERIAL" => "BigInt"
  | "INT8" => "BigInt"
  | "FLOAT" => "Float"
  | "FLOAT4" => "Float"
  | "FLOAT8" => "Float"
  | "REAL" => "Float"
  | "DOUBLE PRECISION" => "Float"
  | "DECIMAL" => "Decimal"
  | "NUMERIC" => "Decimal"
  | "BOOLEAN" => "Boolean"
  | "BOOL" => "Boolean"
  | "BYTEA" => "Bytes"
  | _ => pgType

/-- Translation of ACTION_MAP and toReferentialAction. -/
def toReferentialAction (value : Option String) (fallback : RefAction) : RefAction :=
  match value with
  | none => fallback
  | some v =>
    match strLower v with
    | "cascade" => RefAction.cascade
    | "restrict" => RefAction.restrict
    | "no action" => RefAction.noAction
    | "set null" => RefAction.setNull
    | "set default" => RefAction.setDefault
    | _ => fallback

/-- AST subset consumed by processCreateTable: column definitions and
table-level constraints. -/
inductive CreateDef where
  | column (colName dataType : String) (notNull hasDefaultVal inlinePk inlineUnique : Bool)
  | pkConstraint (fields : List String)
  | uniqueConstraint (cname : Option String) (fields : List String)
  | fkConstraint (fields : List String) (refTable : String) (refFields : List String)
      (onDeleteRaw onUpdateRaw : Option String)
deriving DecidableEq, Repr

/-- AST subset consumed by parseSqlString: the two create statements it
processes (CREATE TABLE and CREATE [UNIQUE] INDEX). -/
inductive SqlStmt where
  | createTable (tableName : String) (defs : List CreateDef)
  | createIndex (uniqueIdx : Bool) (idxName tableName : String) (idxFields : List String)
deriving DecidableEq, Repr

/-- The table a statement touches. -/
def stmtTableName : SqlStmt → String
  | SqlStmt.createTable n _ => n
  | SqlStmt.createIndex _ _ n _ => n

/-- Per-table accumulation state of parseSqlString. -/
structure TableState where
  fields : List FieldContract
  primaryKey : Option PrimaryKeyConstraint
  uniqueConstraints : List UniqueConstraint
  indexes : List IndexConstraint
  foreignKeys : List ForeignKeyConstraint
deriving DecidableEq, Repr

/-- The fresh state created by ensureTable. -/
def emptyTableState : TableState :=
  { fields := [], primaryKey := none, uniqueConstraints := [], indexes := [], foreignKeys := [] }

/-- Field contributed by a column definition. -/
def columnFieldsOfDef (d : CreateDef) : List FieldContract :=
  match d with
  | CreateDef.column nm dataType notNull hasDefaultVal inlinePk _ =>
    [{ name := nm
       type := normalizeType dataType
       isNullable := !notNull && !inlinePk && !(isSerialType dataType)
       hasDefault := hasDefaultVal || isSerialType dataType
       isList := false }]
  | _ => []

/-- Unique constraints contributed by a definition (inline column UNIQUE or a
table-level UNIQUE constraint). -/
def uniquesOfDef (d : CreateDef) : List UniqueConstraint :=
  match d with
  | CreateDef.column nm _ _ _ _ inlineUnique =>
    if inlineUnique then [{ name := none, fields := [nm], isComposite := false }] else []
  | CreateDef.uniqueConstraint cname fs =>
    [{ name := cname, fields := fs, isComposite := 1 < fs.length }]
  | _ => []

/-- Foreign keys contributed by a definition. -/
def fksOfDef (d : CreateDef) : List ForeignKeyConstraint :=
  match d with
  | CreateDef.fkConstraint fs refT refFs od ou =>
    [{ fields := fs, referencedModel := refT, referencedFields := refFs
       onDelete := toReferentialAction od RefAction.noAction
       onUpdate := toReferentialAction ou RefAction.noAction }]
  | _ => []

/-- Table-level PRIMARY KEY assignment (last one wins, as in the source). -/
def pkUpdateOfDef (d : CreateDef) (cur : Option PrimaryKeyConstraint) :
    Option PrimaryKeyConstraint :=
  match d with
  | CreateDef.pkConstraint fs => some { fields := fs, isComposite := 1 < fs.length }
  | _ => cur

/-- Column-level PRIMARY KEY markers collected while scanning definitions. -/
def inlinePksOfDef (d : CreateDef) : List String :=
  match d with
  | CreateDef.column nm _ _ _ inlinePk _ => if inlinePk then [nm] else []
  | _ => []

/-- One step of the processCreateTable definition loop. -/
def applyCreateDef (st : TableState × List String) (d : CreateDef) : TableState × List String :=
  ({ fields := st.1.fields ++ columnFieldsOfDef d
     primaryKey := pkUpdateOfDef d st.1.primaryKey
     uniqueConstraints := st.1.uniqueConstraints ++ uniquesOfDef d
     indexes := st.1.indexes
     foreignKeys := st.1.foreignKeys ++ fksOfDef d }, st.2 ++ inlinePksOfDef d)

/-- The inline-PK fallback applied after the definition loop. -/
def applyInlinePk (st : TableState × List String) : TableState :=
  if st.1.primaryKey.isNone && !st.2.isEmpty then
    { st.1 with primaryKey := some { fields := st.2, isComposite := 1 < st.2.length } }
  else st.1

/-- Translation of processCreateTable on one table state. -/
def runCreateTable (ts : TableState) (defs : List CreateDef) : TableState :=
  applyInlinePk (defs.foldl applyCreateDef (ts, []))

/-- Translation of processCreateIndex on one table state. -/
def runCreateIndex (ts : TableState) (uniqueIdx : Bool) (idxName : String)
    (idxFields : List String) : TableState :=
  if uniqueIdx then
    { ts with uniqueConstraints := ts.uniqueConstraints ++
        [{ name := some idxName, fields := idxFields, isComposite := 1 < idxFields.length }] }
  else
    { ts with indexes := ts.indexes ++ [{ name := some idxName, fields := idxFields }] }

/-- Insertion-ordered table map update with ensureTable semantics: a missing
entry is created at the end, an existing one is updated in place. -/
def updateTable (tm : List (String × TableState)) (n : String) (f : TableState → TableState) :
    List (String × TableState) :=
  match tm with
  | [] => [(n, f emptyTableState)]
  | (k, ts) :: rest => if k = n then (k, f ts) :: rest else (k, ts) :: updateTable rest n f

/-- Dispatch of one statement, as in the parseSqlString statement loop. -/
def processStmt (tm : List (String × TableState)) (s : SqlStmt) : List (String × TableState) :=
  match s with
  | SqlStmt.createTable n defs => updateTable tm n (fun ts => runCreateTable ts defs)
  | SqlStmt.createIndex u iname n fs => updateTable tm n (fun ts => runCreateIndex ts u iname fs)

/-- Build one sorted ModelContract from an accumulated table state. -/
def mkModelContract (n : String) (ts : TableState) : ModelContract :=
  { name := n
    fields := sortBy (fun f => f.name) ts.fields
    primaryKey := ts.primaryKey
    uniqueConstraints := sortBy (fun uc => joinKey uc.fields) ts.uniqueConstraints
    indexes := sortBy (fun ix => joinKey ix.fields) ts.indexes
    foreignKeys := sortBy (fun fk => joinKey fk.fields) ts.foreignKeys }

/-- Translation of parseSqlString after AST-ification: process the statement
list into the table map, then build the sorted contract. -/
def parseSqlStatements (stmts : List SqlStmt) : ConstraintContract :=
  { models := sortBy (fun m => m.name)
      ((stmts.foldl processStmt []).map (fun p => mkModelContract p.1 p.2)) }

/-- Apply one statement to a single table state (the action processStmt
performs on the touched table). -/
def applyStmtTo (ts : TableState) (s : SqlStmt) : TableState :=
  match s with
  | SqlStmt.createTable _ defs => runCreateTable ts defs
  | SqlStmt.createIndex u iname _ fs => runCreateIndex ts u iname fs

/-- Fields a statement appends to its table. -/
def stmtFieldContribs (s : SqlStmt) : List FieldContract :=
  match s with
  | SqlStmt.createTable _ defs => defs.flatMap columnFieldsOfDef
  | _ => []

/-- Unique constraints a statement appends to its table. -/
def stmtUniqueContribs (s : SqlStmt) : List UniqueConstraint :=
  match s with
  | SqlStmt.createTable _ defs => defs.flatMap uniquesOfDef
  | SqlStmt.createIndex u iname _ fs =>
    if u then [{ name := some iname, fields := fs, isComposite := 1 < fs.length }] else []

/-- Indexes a statement appends to its table. -/
def stmtIndexContribs (s : SqlStmt) : List IndexConstraint :=
  match s with
  | SqlStmt.createIndex u iname _ fs =>
    if u then [] else [{ name := some iname, fields := fs }]
  | _ => []

/-- Foreign keys a statement appends to its table. -/
def stmtFkContribs (s : SqlStmt) : List ForeignKeyConstraint :=
  match s with
  | SqlStmt.createTable _ defs => defs.flatMap fksOfDef
  | _ => []

/-- Whether a statement is a CREATE TABLE. -/
def isCT (s : SqlStmt) : Bool :=
  match s with
  | SqlStmt.createTable _ _ => true
  | _ => false

/-- The table name of a CREATE TABLE statement. -/
def ctNameOf (s : SqlStmt) : Option String :=
  match s with
  | SqlStmt.createTable n _ => some n
  | _ => none

/-- The table-level PRIMARY KEY fold over a definition list. -/
def pkOfDefsFrom (defs : List CreateDef) (cur : Option PrimaryKeyConstraint) :
    Option PrimaryKeyConstraint :=
  defs.foldl (fun c d => pkUpdateOfDef d c) cur

/-- The primary key processCreateTable leaves after the definition loop and the
inline-PK fallback. -/
def finalPkOfDefs (defs : List CreateDef) (cur : Option PrimaryKeyConstraint) :
    Option PrimaryKeyConstraint :=
  if (pkOfDefsFrom defs cur).isNone && !(defs.flatMap inlinePksOfDef).isEmpty then
    some { fields := defs.flatMap inlinePksOfDef
           isComposite := 1 < (defs.flatMap inlinePksOfDef).length }
  else pkOfDefsFrom defs cur

/-- The primary-key update a statement performs on its table. -/
def stmtPkUpdate (s : SqlStmt) (cur : Option PrimaryKeyConstraint) :
    Option PrimaryKeyConstraint :=
  match s with
  | SqlStmt.createTable _ defs => finalPkOfDefs defs cur
  | _ => cur

/-- The primary-key fold over a statement list. -/
def pkFoldStmts (r : List SqlStmt) (cur : Option PrimaryKeyConstraint) :
    Option PrimaryKeyConstraint :=
  r.foldl (fun c s => stmtPkUpdate s c) cur

/-- Assoc-list lookup in the accumulated table map. -/
def lookupTM (tm : List (String × TableState)) (t : String) : Option TableState :=
  match tm with
  | [] => none
  | (k, ts) :: rest => if k = t then some ts else lookupTM rest t

/-- The insertion-ordered key list of the table map. -/
def keysTM (tm : List (String × TableState)) : List String := tm.map Prod.fst

/-- Counterexample table: CREATE TABLE T (id INT NOT NULL PRIMARY KEY). -/
def c4Table : SqlStmt :=
  SqlStmt.createTable "T" [CreateDef.column "id" "INT" true false true false]

/-- Counterexample index: CREATE INDEX ia ON T (x). -/
def c4IdxA : SqlStmt := SqlStmt.createIndex false "ia" "T" ["x"]

/-- Counterexample index: CREATE INDEX ib ON T (x): same fields as ia, so the
two indexes share the concatenated-field sort key. -/
def c4IdxB : SqlStmt := SqlStmt.createIndex false "ib" "T" ["x"]

/-- A well-formed statement list for the C4 witness. -/
def w4L1 : List SqlStmt :=
  [SqlStmt.createTable "T"
      [CreateDef.column "id" "INT" true false true false,
       CreateDef.column "name" "TEXT" false false false true],
   SqlStmt.createIndex false "iname" "T" ["name"],
   SqlStmt.createIndex true "uemail" "T" ["email"]]

/-- The same statements in a different declaration order. -/
def w4L2 : List SqlStmt :=
  [SqlStmt.createIndex true "uemail" "T" ["email"],
   SqlStmt.createTable "T"
      [CreateDef.column "id" "INT" true false true false,
       CreateDef.column "name" "TEXT" false false false true],
   SqlStmt.createIndex false "iname" "T" ["name"]]

/-- A foldl that only appends per-element contributions is a flatMap. -/
theorem foldl_flatMap_eq {β γ : Type} (F : List γ → β → List γ) (G : β → List γ)
    (hF : ∀ acc b, F acc b = acc ++ G b) :
    ∀ (l : List β) (acc : List γ), l.foldl F acc = acc ++ l.flatMap G := by
  intro l
  induction l with
  | nil => intro acc; simp
  | cons b t ih =>
    intro acc
    rw [List.foldl_cons, hF, ih, List.flatMap_cons, List.append_assoc]

/-- Pushing a singleton when a test fails is filtering then mapping. -/
theorem flatMap_ite_singleton {β γ : Type} (p : β → Bool) (h : β → γ) :
    ∀ l : List β,
      l.flatMap (fun x => if p x then [] else [h x]) = (l.filter (fun x => !(p x))).map h := by
  intro l
  induction l with
  | nil => rfl
  | cons x t ih =>
    by_cases hx : p x = true
    · simp [hx, ih]
    · simp [List.filter_cons, Bool.not_eq_true] at hx ⊢
      simp [hx, ih]

/-- In a flatMap over entries with pairwise distinct keys, where every
contributed finding is stamped with its entry key, filtering by a predicate
that forces the key of a fixed member keeps exactly that member's findings. -/
theorem filter_flatMap_key {α : Type} (F : α → List Finding) (keyOf : α → String)
    (P : Finding → Bool) :
    ∀ (l : List α) (x : α), x ∈ l → (l.map keyOf).Nodup →
      (∀ y, y ∈ l → ∀ fi, fi ∈ F y → fi.model = keyOf y) →
      (∀ fi, P fi = true → fi.model = keyOf x) →
      (l.flatMap F).filter P = (F x).filter P := by
  intro l
  induction l with
  | nil => intro x hx; cases hx
  | cons y t ih =>
    intro x hx hnd hF hP
    rw [List.flatMap_cons, List.filter_append]
    rcases List.mem_cons.mp hx with hxy | hxt
    · subst hxy
      have htail : (t.flatMap F).filter P = [] := by
        rw [List.filter_eq_nil_iff]
        intro fi hfi
        obtain ⟨z, hz, hfiz⟩ := List.mem_flatMap.mp hfi
        have hmodel := hF z (List.mem_cons_of_mem _ hz) fi hfiz
        intro hPfi
        have hx2 := hP fi hPfi
        have hmem : keyOf x ∈ t.map keyOf := by
          rw [← hx2, hmodel]
          exact List.mem_map.mpr ⟨z, hz, rfl⟩
        exact (List.nodup_cons.mp hnd).1 hmem
      rw [htail, List.append_nil]
    · have hhead : (F y).filter P = [] := by
        rw [List.filter_eq_nil_iff]
        intro fi hfi hPfi
        have hmodel := hF y (List.mem_cons_self _ _) fi hfi
        have hx2 := hP fi hPfi
        have hkey : keyOf y = keyOf x := by rw [← hmodel, hx2]
        have : keyOf x ∈ t.map keyOf := List.mem_map.mpr ⟨x, hxt, rfl⟩
        rw [← hkey] at this
        exact (List.nodup_cons.mp hnd).1 this
      rw [hhead, List.nil_append]
      exact ih x hxt (List.nodup_cons.mp hnd).2
        (fun z hz fi hfi => hF z (List.mem_cons_of_mem _ hz) fi hfi) hP

/-- Counting through a flatMap is summing the per-element counts. -/
theorem countP_flatMap {β : Type} (g : β → List Finding) (P : Finding → Bool) :
    ∀ l : List β, (l.flatMap g).countP P = (l.map (fun b => (g b).countP P)).sum := by
  intro l
  induction l with
  | nil => rfl
  | cons b t ih => rw [List.flatMap_cons, List.countP_append, ih, List.map_cons, List.sum_cons]

/-- countP as a sum of indicator values. -/
theorem countP_eq_sum_map {β : Type} (p : β → Bool) :
    ∀ l : List β, l.countP p = (l.map (fun b => if p b then 1 else 0)).sum := by
  intro l
  induction l with
  | nil => rfl
  | cons b t ih =>
    by_cases hb : p b = true
    · simp [List.countP_cons, hb, ih, Nat.add_comm]
    · simp [List.countP_cons, hb, ih]

/-- find? returns the unique element satisfying the test, when it is a member. -/
theorem find?_eq_some_of_unique {β : Type} (p : β → Bool) :
    ∀ (l : List β) (x : β), x ∈ l → p x = true → (∀ y, y ∈ l → p y = true → y = x) →
      l.find? p = some x := by
  intro l
  induction l with
  | nil => intro x hx; cases hx
  | cons b t ih =>
    intro x hx hpx huniq
    by_cases hb : p b = true
    · rw [List.find?_cons_of_pos _ hb]
      exact congrArg some (huniq b (List.mem_cons_self _ _) hb).symm ▸ rfl
    · rw [List.find?_cons_of_neg _ (by simpa using hb)]
      rcases List.mem_cons.mp hx with hxy | hxt
      · exact absurd (hxy ▸ hpx) hb
      · exact ih x hxt hpx (fun y hy hpy => huniq y (List.mem_cons_of_mem _ hy) hpy)

/-- The prefix test of the source agrees with taking the first N fields. -/
theorem isLeftmostPrefixOf_iff :
    ∀ a b : List String, isLeftmostPrefixOf a b = true ↔ b.take a.length = a
  | [], b => by simp [isLeftmostPrefixOf]
  | x :: xs, [] => by simp [isLeftmostPrefixOf]
  | x :: xs, y :: ys => by
    have ih := isLeftmostPrefixOf_iff xs ys
    by_cases hlen : ys.length < xs.length
    · have hlen2 : (y :: ys).length < (x :: xs).length := by simpa using hlen
      simp only [isLeftmostPrefixOf, if_pos hlen2]
      constructor
      · intro h; cases h
      · intro h
        have := congrArg List.length h
        simp [List.length_take] at this
        omega
    · have hlen2 : ¬ (y :: ys).length < (x :: xs).length := by simpa using hlen
      simp only [isLeftmostPrefixOf, if_neg hlen2] at ih ⊢
      by_cases hxy : x = y
      · subst hxy
        simp only [List.length_cons, List.take_succ_cons, List.zip_cons_cons, List.all_cons]
        rw [if_neg hlen] at ih
        constructor
        · intro h
          have h2 := (Bool.and_eq_true _ _).mp h
          rw [ih.mp h2.2]
        · intro h
          have h2 : ys.take xs.length = xs := by
            have := congrArg List.tail h
            simpa using this
          simp [ih.mpr h2]
      · simp only [List.length_cons, List.take_succ_cons, List.zip_cons_cons, List.all_cons]
        constructor
        · intro h
          have h2 := (Bool.and_eq_true _ _).mp h
          exact absurd (of_decide_eq_true h2.1) hxy
        · intro h
          have : y = x := by
            have := congrArg (fun l => l.head?) h
            simpa using this
          exact absurd this.symm hxy

/-- The coverage test of the source agrees with the spec-side coverage. -/
theorem isFkCoveredByIndex_eq_spec (m : ModelContract) (fk : ForeignKeyConstraint) :
    isFkCoveredByIndex fk.fields (m.primaryKey.map (fun pk => pk.fields))
      m.uniqueConstraints m.indexes = fkCoveredSpec m fk := by
  have hpt : ∀ a b : List String,
      isLeftmostPrefixOf a b = decide (b.take a.length = a) := by
    intro a b
    rw [Bool.eq_iff_iff]
    simp [isLeftmostPrefixOf_iff]
  rw [Bool.eq_iff_iff]
  unfold isFkCoveredByIndex fkCoveredSpec specCoveringFieldLists
  cases m.primaryKey <;>
    simp [List.any_eq_true, hpt]

/-- checkFkIndexes written as a flatMap of per-model, per-FK contributions. -/
theorem checkFkIndexes_characterization (contract : ConstraintContract) :
    checkFkIndexes contract = contract.models.flatMap (fun m =>
      (m.foreignKeys.filter (fun fk => !(fkCoveredSpec m fk))).map (fkMissingIndexFinding m)) := by
  have inner : ∀ (acc : List Finding) (m : ModelContract),
      m.foreignKeys.foldl
        (fun findings fk =>
          findings ++
            (if isFkCoveredByIndex fk.fields (m.primaryKey.map (fun pk => pk.fields))
                m.uniqueConstraints m.indexes
             then []
             else [fkMissingIndexFinding m fk]))
        acc
      = acc ++ (m.foreignKeys.filter (fun fk => !(fkCoveredSpec m fk))).map
          (fkMissingIndexFinding m) := by
    intro acc m
    have h1 := foldl_flatMap_eq
      (fun findings fk =>
        findings ++
          (if isFkCoveredByIndex fk.fields (m.primaryKey.map (fun pk => pk.fields))
              m.uniqueConstraints m.indexes
           then []
           else [fkMissingIndexFinding m fk]))
      (fun fk => if fkCoveredSpec m fk then [] else [fkMissingIndexFinding m fk])
      (fun acc2 fk => by simp only [isFkCoveredByIndex_eq_spec])
      m.foreignKeys acc
    rw [h1, flatMap_ite_singleton]
  unfold checkFkIndexes
  have h2 := foldl_flatMap_eq _
    (fun m => (m.foreignKeys.filter (fun fk => !(fkCoveredSpec m fk))).map (fkMissingIndexFinding m))
    inner contract.models []
  rw [h2, List.nil_append]

/-- C5: checkFkIndexes emits a FK_MISSING_INDEX finding for a foreign key if
and only if the FK field list is not a leftmost segment (first N fields, N the
FK field count) of the owning model's PK, of some unique constraint, or of
some plain index, with exactly one finding per uncovered foreign key. -/
theorem checkFkIndexes_iff_uncovered (contract : ConstraintContract) :
    checkFkIndexes contract = contract.models.flatMap (fun m =>
      (m.foreignKeys.filter (fun fk => !(fkCoveredSpec m fk))).map (fkMissingIndexFinding m)) :=
  checkFkIndexes_characterization contract

/-- C10: every finding of checkFkIndexes is a FK_MISSING_INDEX finding with
severity info and normalForm SCHEMA, whose field is the FK's sole field name
for single-field FKs and null for FKs with two or more fields. -/
theorem checkFkIndexes_finding_shape (contract : ConstraintContract) (f : Finding)
    (hf : f ∈ checkFkIndexes contract) :
    f.rule = RuleCode.FK_MISSING_INDEX ∧ f.severity = Severity.info ∧
      f.normalForm = NormalForm.schema ∧
      ∃ m fk, m ∈ contract.models ∧ fk ∈ m.foreignKeys ∧
        (∀ x, fk.fields = [x] → f.field = some x) ∧
        (2 ≤ fk.fields.length → f.field = none) := by
  rw [checkFkIndexes_characterization] at hf
  obtain ⟨m, hm, hf2⟩ := List.mem_flatMap.mp hf
  obtain ⟨fk, hfk, heq⟩ := List.mem_map.mp hf2
  have hfkmem := (List.mem_filter.mp hfk).1
  rw [← heq]
  refine ⟨rfl, rfl, rfl, m, fk, hm, hfkmem, ?_, ?_⟩
  · intro x hx
    simp [fkMissingIndexFinding, hx]
  · intro hlen
    have h1 : fk.fields.length ≠ 1 := by omega
    simp [fkMissingIndexFinding, h1]

/-- The concrete uncovered FK of the witness contract yields its finding. -/
theorem w10_mem : fkMissingIndexFinding w10Model w10Fk ∈ checkFkIndexes w10Contract := by
  have h : checkFkIndexes w10Contract = [fkMissingIndexFinding w10Model w10Fk] := rfl
  rw [h]
  exact List.mem_singleton_self _

/-- Witness for the FK finding-shape claim at a concrete contract. -/
theorem checkFkIndexes_finding_shape_witness :
    (fkMissingIndexFinding w10Model w10Fk ∈ checkFkIndexes w10Contract) ∧
    ((fkMissingIndexFinding w10Model w10Fk).rule = RuleCode.FK_MISSING_INDEX ∧
      (fkMissingIndexFinding w10Model w10Fk).severity = Severity.info ∧
      (fkMissingIndexFinding w10Model w10Fk).normalForm = NormalForm.schema ∧
      ∃ m fk, m ∈ w10Contract.models ∧ fk ∈ m.foreignKeys ∧
        (∀ x, fk.fields = [x] → (fkMissingIndexFinding w10Model w10Fk).field = some x) ∧
        (2 ≤ fk.fields.length → (fkMissingIndexFinding w10Model w10Fk).field = none)) :=
  ⟨w10_mem, checkFkIndexes_finding_shape w10Contract _ w10_mem⟩

/-- Pushing a singleton guarded by a decidable proposition is filter-then-map. -/
theorem flatMap_ite_prop {β γ : Type} (p : β → Prop) [DecidablePred p] (h : β → γ) :
    ∀ l : List β,
      l.flatMap (fun x => if p x then [] else [h x])
        = (l.filter (fun x => !(decide (p x)))).map h := by
  intro l
  induction l with
  | nil => rfl
  | cons x t ih =>
    by_cases hx : p x
    · simp [hx, ih]
    · simp [hx, ih]

/-- checkSoftDelete as a flatMap of per-model contributions. -/
theorem checkSoftDelete_characterization (contract : ConstraintContract) :
    checkSoftDelete contract = contract.models.flatMap softDeleteModelFindings := by
  unfold checkSoftDelete
  have hF : ∀ (acc : List Finding) (m : ModelContract),
      (match softDeleteFieldOf m with
       | none => acc
       | some sdf =>
         m.uniqueConstraints.foldl
           (fun findings uq =>
             findings ++
               (if sdf.name ∈ uq.fields then [] else [softDeleteMissingFinding m sdf.name uq]))
           acc)
      = acc ++ softDeleteModelFindings m := by
    intro acc m
    unfold softDeleteModelFindings
    cases h : softDeleteFieldOf m with
    | none => simp
    | some sdf =>
      show
        m.uniqueConstraints.foldl
          (fun findings uq =>
            findings ++
              (if sdf.name ∈ uq.fields then [] else [softDeleteMissingFinding m sdf.name uq]))
          acc
        = acc ++ (m.uniqueConstraints.filter (fun uq => !(sdf.name ∈ uq.fields : Bool))).map
            (softDeleteMissingFinding m sdf.name)
      have h1 := foldl_flatMap_eq
        (fun findings uq =>
          findings ++
            (if sdf.name ∈ uq.fields then [] else [softDeleteMissingFinding m sdf.name uq]))
        (fun uq => if sdf.name ∈ uq.fields then [] else [softDeleteMissingFinding m sdf.name uq])
        (fun acc2 uq => rfl) m.uniqueConstraints acc
      rw [h1, flatMap_ite_prop]
  have h2 := foldl_flatMap_eq _ softDeleteModelFindings hF contract.models []
  rw [h2, List.nil_append]

/-- The soft-delete search predicate of the source agrees with the spec side. -/
theorem sd_pred_iff (f : FieldContract) :
    (((f.name = "deleted_at" || f.name = "deletedAt") && f.type = "DateTime") = true)
      ↔ isSoftDeleteFieldSpec f := by
  simp [isSoftDeleteFieldSpec]

/-- Every finding of softDeleteModelFindings is stamped with the model name. -/
theorem softDeleteModelFindings_model (y : ModelContract) (fi : Finding)
    (hfi : fi ∈ softDeleteModelFindings y) : fi.model = y.name := by
  unfold softDeleteModelFindings at hfi
  cases h : softDeleteFieldOf y with
  | none => rw [h] at hfi; cases hfi
  | some sdf =>
    rw [h] at hfi
    obtain ⟨uq, huq, heq⟩ := List.mem_map.mp hfi
    rw [← heq]
    rfl

/-- C8: for a model with a unique DateTime-typed deleted_at/deletedAt field,
checkSoftDelete emits exactly one SOFTDELETE_MISSING_IN_UNIQUE finding per
unique constraint whose field list does not contain that field, and none for
constraints containing it; models without such a field produce no findings. -/
theorem checkSoftDelete_per_unique (contract : ConstraintContract) (m : ModelContract)
    (hm : m ∈ contract.models) (hnd : (contract.models.map (fun x => x.name)).Nodup) :
    (∀ f, f ∈ m.fields → isSoftDeleteFieldSpec f →
        (∀ g, g ∈ m.fields → isSoftDeleteFieldSpec g → g = f) →
        (checkSoftDelete contract).filter (fun fi => (fi.model = m.name : Bool))
          = (m.uniqueConstraints.filter (fun uq => !(f.name ∈ uq.fields : Bool))).map
              (softDeleteMissingFinding m f.name)) ∧
    ((∀ f, f ∈ m.fields → ¬ isSoftDeleteFieldSpec f) →
      (checkSoftDelete contract).filter (fun fi => (fi.model = m.name : Bool)) = []) := by
  have hmain : (checkSoftDelete contract).filter (fun fi => (fi.model = m.name : Bool))
      = (softDeleteModelFindings m).filter (fun fi => (fi.model = m.name : Bool)) := by
    rw [checkSoftDelete_characterization]
    exact filter_flatMap_key softDeleteModelFindings (fun x => x.name) _ contract.models m hm hnd
      (fun y _ fi hfi => softDeleteModelFindings_model y fi hfi)
      (fun fi h => of_decide_eq_true h)
  constructor
  · intro f hf hsd huniq
    have hfind : softDeleteFieldOf m = some f := by
      unfold softDeleteFieldOf
      exact find?_eq_some_of_unique _ m.fields f hf ((sd_pred_iff f).mpr hsd)
        (fun g hg hpg => huniq g hg ((sd_pred_iff g).mp hpg))
    rw [hmain]
    unfold softDeleteModelFindings
    rw [hfind]
    apply List.filter_eq_self.mpr
    intro fi hfi
    obtain ⟨uq, huq, heq⟩ := List.mem_map.mp hfi
    rw [← heq]
    exact decide_eq_true rfl
  · intro hnone
    have hfind : softDeleteFieldOf m = none := by
      unfold softDeleteFieldOf
      apply List.find?_eq_none.mpr
      intro g hg
      intro hpg
      exact hnone g hg ((sd_pred_iff g).mp hpg)
    rw [hmain]
    unfold softDeleteModelFindings
    rw [hfind]
    rfl

/-- Witness for the soft-delete claim: the unique constraint on email alone is
flagged exactly once for the concrete User model. -/
theorem checkSoftDelete_per_unique_witness :
    w8Model ∈ w8Contract.models ∧
    (w8Contract.models.map (fun x => x.name)).Nodup ∧
    (checkSoftDelete w8Contract).filter (fun fi => (fi.model = w8Model.name : Bool))
      = [softDeleteMissingFinding w8Model "deleted_at" w8Uq] := by
  refine ⟨by decide, by decide, ?_⟩
  have h := (checkSoftDelete_per_unique w8Contract w8Model (by decide) (by decide)).1
    w8Sd (by decide) (by decide) (by decide)
  exact h.trans rfl

/-- C3 evaluation: on the pairing fixture, the soft-delete check of the source
emits no findings at all; in particular it never emits SOFTDELETE_AT_WITHOUT_BY
for AuditLog (deleted_at without deleted_by) nor SOFTDELETE_BY_WITHOUT_AT for
Comment (deleted_by without deleted_at), contradicting the documented rules. -/
theorem checkSoftDelete_pairing_eval : checkSoftDelete c3PairingContract = [] := by decide

/-- The invariant validator as a flatMap of per-entry contributions. -/
theorem validate_characterization (invariants : InvariantsFile) (contract : ConstraintContract) :
    validateInvariantsAgainstContract invariants contract
      = invariants.flatMap (entryFindings contract) := by
  unfold validateInvariantsAgainstContract
  have hF : ∀ (acc : List Finding) (entry : String × ModelInvariants),
      (match contract.models.find? (fun mdl => mdl.name = entry.1) with
       | none => acc ++ [unknownModelFinding entry.1]
       | some model =>
         match entry.2.functionalDependencies with
         | none => acc
         | some fds =>
           fds.foldl
             (fun findings fd =>
               findings ++
                 ((setDedup (fd.determinant ++ fd.dependent)).filter
                     (fun f => !(f ∈ model.fields.map (fun fc => fc.name) : Bool))).map
                   (fun f => unknownFieldFinding entry.1 f))
             acc)
      = acc ++ entryFindings contract entry := by
    intro acc entry
    unfold entryFindings
    cases hfind : contract.models.find? (fun mdl => mdl.name = entry.1) with
    | none => rfl
    | some model =>
      cases hfds : entry.2.functionalDependencies with
      | none => simp
      | some fds =>
        show fds.foldl _ acc = acc ++ fds.flatMap _
        exact foldl_flatMap_eq _ _ (fun acc2 fd => rfl) fds acc
  have h2 := foldl_flatMap_eq _ (entryFindings contract) hF invariants []
  rw [h2, List.nil_append]

/-- Every finding contributed by an invariants entry is stamped with its key. -/
theorem entryFindings_model (contract : ConstraintContract) (entry : String × ModelInvariants)
    (fi : Finding) (hfi : fi ∈ entryFindings contract entry) : fi.model = entry.1 := by
  unfold entryFindings at hfi
  cases hfind : contract.models.find? (fun mdl => mdl.name = entry.1) with
  | none =>
    rw [hfind] at hfi
    rw [List.mem_singleton.mp hfi]
    rfl
  | some model =>
    rw [hfind] at hfi
    cases hfds : entry.2.functionalDependencies with
    | none => rw [hfds] at hfi; cases hfi
    | some fds =>
      rw [hfds] at hfi
      obtain ⟨fd, hfd, hfi2⟩ := List.mem_flatMap.mp hfi
      obtain ⟨g, hg, heq⟩ := List.mem_map.mp hfi2
      rw [← heq]
      rfl

/-- Membership in setDedup is membership in the original list. -/
theorem setDedup_mem : ∀ (L : List String) (f : String), f ∈ setDedup L ↔ f ∈ L := by
  intro L
  induction L with
  | nil => intro f; simp [setDedup]
  | cons a rest ih =>
    intro f
    by_cases hfa : f = a
    · subst hfa
      simp [setDedup]
    · simp [setDedup, hfa, ih f]

/-- setDedup returns a duplicate-free list. -/
theorem setDedup_nodup : ∀ L : List String, (setDedup L).Nodup := by
  intro L
  induction L with
  | nil => exact List.nodup_nil
  | cons a rest ih =>
    rw [setDedup, List.nodup_cons]
    constructor
    · intro hmem
      exact absurd rfl (of_decide_eq_true (List.mem_filter.mp hmem).2)
    · exact ih.filter _

/-- countP of an equality test over a duplicate-free list containing the value is one. -/
theorem countP_eq_one_of_nodup_mem (f : String) :
    ∀ l : List String, l.Nodup → f ∈ l → l.countP (fun g => (g = f : Bool)) = 1 := by
  intro l
  induction l with
  | nil => intro _ h; cases h
  | cons a t ih =>
    intro hnd hmem
    rcases List.mem_cons.mp hmem with rfl | hmt
    · rw [List.countP_cons]
      have h0 : t.countP (fun g => (g = f : Bool)) = 0 := by
        apply List.countP_eq_zero.mpr
        intro g hg
        simp only [decide_eq_true_eq]
        intro hgf
        exact (List.nodup_cons.mp hnd).1 (hgf ▸ hg)
      simp [h0]
    · rw [List.countP_cons]
      have ha : ¬ (a = f) := by
        intro h
        exact (List.nodup_cons.mp hnd).1 (h ▸ hmt)
      rw [ih (List.nodup_cons.mp hnd).2 hmt]
      simp [ha]

/-- C9: for each declared FD of an existing model, validateInvariantsAgainstContract
emits exactly one INVARIANT_UNKNOWN_FIELD finding per distinct referenced field
name missing from the model, even when the field appears in both the
determinant and the dependent of the same FD. -/
theorem invariant_unknown_field_dedup
    (invariants : InvariantsFile) (contract : ConstraintContract)
    (m : String) (entry : ModelInvariants) (fds : List InvariantFd)
    (model : ModelContract) (f : String)
    (hmem : (m, entry) ∈ invariants)
    (hkeys : (invariants.map Prod.fst).Nodup)
    (hmodel : contract.models.find? (fun mdl => mdl.name = m) = some model)
    (hfds : entry.functionalDependencies = some fds)
    (hmiss : ¬ f ∈ model.fields.map (fun fc => fc.name)) :
    (validateInvariantsAgainstContract invariants contract).countP
        (fun fi => fi.rule = RuleCode.INVARIANT_UNKNOWN_FIELD
          && fi.model = m && fi.field = some f)
      = fds.countP (fun fd => f ∈ fd.determinant || f ∈ fd.dependent) := by
  rw [validate_characterization]
  rw [List.countP_eq_length_filter]
  rw [filter_flatMap_key (entryFindings contract) Prod.fst _ invariants (m, entry) hmem hkeys
    (fun y _ fi hfi => entryFindings_model contract y fi hfi)
    (fun fi h => by
      simp only [Bool.and_eq_true, decide_eq_true_eq] at h
      exact h.1.2)]
  rw [← List.countP_eq_length_filter]
  show (entryFindings contract (m, entry)).countP _ = _
  unfold entryFindings
  rw [hmodel]
  show (match entry.functionalDependencies with
    | none => ([] : List Finding)
    | some fds => fds.flatMap _).countP _ = _
  rw [hfds]
  rw [countP_flatMap]
  rw [countP_eq_sum_map (fun fd => (f ∈ fd.determinant || f ∈ fd.dependent : Bool)) fds]
  congr 1
  apply List.map_congr_left
  intro fd _
  rw [List.countP_map]
  have hcong : ∀ g ∈ (setDedup (fd.determinant ++ fd.dependent)).filter
      (fun g => !(g ∈ model.fields.map (fun fc => fc.name) : Bool)),
      (((fun fi => fi.rule = RuleCode.INVARIANT_UNKNOWN_FIELD
          && fi.model = m && fi.field = some f) ∘ (fun g => unknownFieldFinding m g)) g = true)
        ↔ ((fun g => (g = f : Bool)) g = true) := by
    intro g _
    simp [unknownFieldFinding]
  rw [List.countP_congr hcong]
  by_cases href : f ∈ fd.determinant ∨ f ∈ fd.dependent
  · have hfL : f ∈ setDedup (fd.determinant ++ fd.dependent) :=
      (setDedup_mem _ f).mpr (List.mem_append.mpr href)
    have hfF : f ∈ (setDedup (fd.determinant ++ fd.dependent)).filter
        (fun g => !(g ∈ model.fields.map (fun fc => fc.name) : Bool)) := by
      apply List.mem_filter.mpr
      exact ⟨hfL, by simpa using hmiss⟩
    rw [countP_eq_one_of_nodup_mem f _ ((setDedup_nodup _).filter _) hfF]
    have : (f ∈ fd.determinant || f ∈ fd.dependent : Bool) = true := by simpa using href
    rw [this]
    simp
  · have hnotL : ¬ f ∈ setDedup (fd.determinant ++ fd.dependent) := by
      rw [setDedup_mem, List.mem_append]
      exact href
    have h0 : ((setDedup (fd.determinant ++ fd.dependent)).filter
        (fun g => !(g ∈ model.fields.map (fun fc => fc.name) : Bool))).countP
          (fun g => (g = f : Bool)) = 0 := by
      apply List.countP_eq_zero.mpr
      intro g hg
      simp only [decide_eq_true_eq]
      intro hgf
      exact hnotL (hgf ▸ (List.mem_filter.mp hg).1)
    rw [h0]
    have : (f ∈ fd.determinant || f ∈ fd.dependent : Bool) = false := by
      simpa using href
    rw [this]
    simp

/-- Witness for the invariant-dedup claim: the ghost FD produces exactly one
finding although ghost is referenced in both the determinant and dependent. -/
theorem invariant_unknown_field_dedup_witness :
    (validateInvariantsAgainstContract w9Invs w9Contract).countP
        (fun fi => fi.rule = RuleCode.INVARIANT_UNKNOWN_FIELD
          && fi.model = "User" && fi.field = some "ghost")
      = 1 := by
  have h := invariant_unknown_field_dedup w9Invs w9Contract "User" w9Entry w9Fds w9Model "ghost"
    (by decide) (by decide) (by decide) rfl (by decide)
  rw [h]
  decide

/-- C2 evaluation: the invariant validator of the source accepts a declared FD
whose determinant is backed by no PK or unique constraint without emitting any
finding; no INVARIANT_DETERMINANT_NOT_ENFORCED finding exists in the output. -/
theorem invariant_determinant_not_enforced_eval :
    validateInvariantsAgainstContract c2Invs c2Contract = [] := by decide

/-- check2nf as a flatMap of per-model contributions. -/
theorem check2nf_characterization (contract : ConstraintContract)
    (fds : List FunctionalDependency) :
    check2nf contract fds = contract.models.flatMap (check2nfModelFindings contract fds) := by
  unfold check2nf
  have hF : ∀ (acc : List Finding) (m : ModelContract),
      (match (extractCandidateKeys contract m.name).find?
          (fun k => k.source = FdSource.pk && 1 < k.fields.length) with
       | some compositePk =>
         acc ++ checkPartialDependency m compositePk.fields fds
           ++ checkJoinTableDuplicatedAttr m compositePk.fields
       | none => acc)
      = acc ++ check2nfModelFindings contract fds m := by
    intro acc m
    unfold check2nfModelFindings
    cases h : (extractCandidateKeys contract m.name).find?
        (fun k => k.source = FdSource.pk && 1 < k.fields.length) with
    | none => simp
    | some compositePk => simp [List.append_assoc]
  have h2 := foldl_flatMap_eq _ (check2nfModelFindings contract fds) hF contract.models []
  rw [h2, List.nil_append]

/-- Every finding contributed by check2nf for a model is stamped with its name. -/
theorem check2nfModelFindings_model (contract : ConstraintContract)
    (fds : List FunctionalDependency) (y : ModelContract) (fi : Finding)
    (hfi : fi ∈ check2nfModelFindings contract fds y) : fi.model = y.name := by
  unfold check2nfModelFindings at hfi
  cases h : (extractCandidateKeys contract y.name).find?
      (fun k => k.source = FdSource.pk && 1 < k.fields.length) with
  | none => rw [h] at hfi; cases hfi
  | some compositePk =>
    rw [h] at hfi
    rcases List.mem_append.mp hfi with hp | hj
    · unfold checkPartialDependency at hp
      by_cases hnk : (y.fields.any (fun f => !(f.name ∈ compositePk.fields : Bool))) = true
      · simp only [hnk, Bool.not_true] at hp
        have hp2 : ∃ fd, (fd ∈ fds ∧ isProperSubsetOfPk fd.determinant compositePk.fields = true
            ∧ fd.model = y.name ∧ fd.source = FdSource.fk)
            ∧ partialDependencyFinding y fd = fi := by simpa using hp
        obtain ⟨fd, _, heq⟩ := hp2
        rw [← heq]
        rfl
      · rw [Bool.not_eq_true] at hnk
        simp only [hnk] at hp
        cases hp
    · unfold checkJoinTableDuplicatedAttr at hj
      by_cases hall : (compositePk.fields.all
          (fun f => f ∈ (y.foreignKeys.map (fun fk => fk.fields)).flatten)) = true
      · simp only [hall, Bool.not_true] at hj
        by_cases hex : 0 < ((y.fields.map (fun f => f.name)).filter
            (fun nm => !(nm ∈ compositePk.fields : Bool)
              && !(nm ∈ (y.foreignKeys.map (fun fk => fk.fields)).flatten : Bool))).length
        · simp only [if_pos hex] at hj
          rw [List.mem_singleton.mp hj]
          rfl
        · simp only [if_neg hex] at hj
          cases hj
      · rw [Bool.not_eq_true] at hall
        simp only [hall] at hj
        cases hj

/-- Under duplicate-free model names, the member with a given name is found. -/
theorem find?_models_eq (contract : ConstraintContract) (m : ModelContract)
    (hm : m ∈ contract.models) (hnd : (contract.models.map (fun x => x.name)).Nodup) :
    contract.models.find? (fun mdl => mdl.name = m.name) = some m := by
  apply find?_eq_some_of_unique _ contract.models m hm (decide_eq_true rfl)
  intro y hy hpy
  exact List.inj_on_of_nodup_map hnd hy hm (of_decide_eq_true hpy)

/-- The composite-PK candidate-key search succeeds exactly on composite PKs. -/
theorem compositePk_find_some (contract : ConstraintContract) (m : ModelContract)
    (pk : PrimaryKeyConstraint) (hm : m ∈ contract.models)
    (hnd : (contract.models.map (fun x => x.name)).Nodup)
    (hpk : m.primaryKey = some pk) (hlen : 1 < pk.fields.length) :
    (extractCandidateKeys contract m.name).find?
        (fun k => k.source = FdSource.pk && 1 < k.fields.length)
      = some { model := m.name, fields := pk.fields, source := FdSource.pk } := by
  unfold extractCandidateKeys
  rw [find?_models_eq contract m hm hnd]
  dsimp only
  rw [hpk]
  have hpred : ((fun (k : CandidateKey) => k.source = FdSource.pk && 1 < k.fields.length)
      { model := m.name, fields := pk.fields, source := FdSource.pk }) = true := by
    simp [hlen]
  dsimp only
  rw [List.cons_append, List.nil_append]
  exact List.find?_cons_of_pos _ hpred

/-- The composite-PK candidate-key search fails without a composite PK. -/
theorem compositePk_find_none (contract : ConstraintContract) (m : ModelContract)
    (hm : m ∈ contract.models) (hnd : (contract.models.map (fun x => x.name)).Nodup)
    (h : ∀ pk, m.primaryKey = some pk → ¬ 1 < pk.fields.length) :
    (extractCandidateKeys contract m.name).find?
        (fun k => k.source = FdSource.pk && 1 < k.fields.length) = none := by
  unfold extractCandidateKeys
  rw [find?_models_eq contract m hm hnd]
  dsimp only
  have huniq : (m.uniqueConstraints.map (fun uc =>
      ({ model := m.name, fields := uc.fields, source := FdSource.unique } : CandidateKey))).find?
      (fun k => k.source = FdSource.pk && 1 < k.fields.length) = none := by
    apply List.find?_eq_none.mpr
    intro k hk
    obtain ⟨uc, huc, heq⟩ := List.mem_map.mp hk
    rw [← heq]
    simp
  cases hpk : m.primaryKey with
  | none => rw [List.nil_append]; exact huniq
  | some pk =>
    dsimp only
    rw [List.cons_append, List.nil_append]
    refine (List.find?_cons_of_neg _ ?_).trans huniq
    have hc := h pk hpk
    simp
    omega

/-- On duplicate-free field lists, the length-based proper-subset test of the
source coincides with set-theoretic proper inclusion. -/
theorem isProperSubsetOfPk_iff (d p : List String) (hd : d.Nodup) (hp : p.Nodup) :
    isProperSubsetOfPk d p = true ↔ d.toFinset ⊂ p.toFinset := by
  unfold isProperSubsetOfPk
  simp only [Bool.and_eq_true, decide_eq_true_eq, List.all_eq_true]
  constructor
  · rintro ⟨hlen, hall⟩
    have hsub : d.toFinset ⊆ p.toFinset := by
      intro x hx
      rw [List.mem_toFinset] at hx ⊢
      exact hall x hx
    rw [Finset.ssubset_iff_subset_ne]
    refine ⟨hsub, ?_⟩
    intro heq
    have hcard := congrArg Finset.card heq
    rw [List.toFinset_card_of_nodup hd, List.toFinset_card_of_nodup hp] at hcard
    omega
  · intro hss
    constructor
    · have hcard := Finset.card_lt_card hss
      rw [List.toFinset_card_of_nodup hd, List.toFinset_card_of_nodup hp] at hcard
      exact hcard
    · intro x hx
      exact List.mem_toFinset.mp (hss.subset (List.mem_toFinset.mpr hx))

/-- A finding of check2nf for model y is either a partial-dependency finding
or a join-table finding of y. -/
theorem check2nfModelFindings_cases (contract : ConstraintContract)
    (fds : List FunctionalDependency) (y : ModelContract) (fi : Finding)
    (hfi : fi ∈ check2nfModelFindings contract fds y) :
    (∃ fd, fi = partialDependencyFinding y fd) ∨ (∃ extras, fi = joinTableFinding y extras) := by
  unfold check2nfModelFindings at hfi
  cases h : (extractCandidateKeys contract y.name).find?
      (fun k => k.source = FdSource.pk && 1 < k.fields.length) with
  | none => rw [h] at hfi; cases hfi
  | some compositePk =>
    rw [h] at hfi
    rcases List.mem_append.mp hfi with hp | hj
    · unfold checkPartialDependency at hp
      by_cases hnk : (y.fields.any (fun f => !(f.name ∈ compositePk.fields : Bool))) = true
      · simp only [hnk, Bool.not_true] at hp
        have hp2 : ∃ fd, (fd ∈ fds ∧ isProperSubsetOfPk fd.determinant compositePk.fields = true
            ∧ fd.model = y.name ∧ fd.source = FdSource.fk)
            ∧ partialDependencyFinding y fd = fi := by simpa using hp
        obtain ⟨fd, _, heq⟩ := hp2
        exact Or.inl ⟨fd, heq.symm⟩
      · rw [Bool.not_eq_true] at hnk
        simp only [hnk] at hp
        cases hp
    · unfold checkJoinTableDuplicatedAttr at hj
      by_cases hall : (compositePk.fields.all
          (fun f => f ∈ (y.foreignKeys.map (fun fk => fk.fields)).flatten)) = true
      · simp only [hall, Bool.not_true] at hj
        by_cases hex : 0 < ((y.fields.map (fun f => f.name)).filter
            (fun nm => !(nm ∈ compositePk.fields : Bool)
              && !(nm ∈ (y.foreignKeys.map (fun fk => fk.fields)).flatten : Bool))).length
        · simp only [if_pos hex] at hj
          exact Or.inr ⟨_, List.mem_singleton.mp hj⟩
        · simp only [if_neg hex] at hj
          cases hj
      · rw [Bool.not_eq_true] at hall
        simp only [hall] at hj
        cases hj

/-- Join-table findings never count as partial-dependency findings. -/
theorem joinTable_countP_partial_zero (m : ModelContract) (pkF : List String) :
    (checkJoinTableDuplicatedAttr m pkF).countP
      (fun fi => fi.rule = RuleCode.NF2_PARTIAL_DEPENDENCY_SUSPECTED && fi.model = m.name) = 0 := by
  apply List.countP_eq_zero.mpr
  intro fi hfi
  unfold checkJoinTableDuplicatedAttr at hfi
  by_cases hall : (pkF.all (fun f => f ∈ (m.foreignKeys.map (fun fk => fk.fields)).flatten)) = true
  · simp only [hall, Bool.not_true] at hfi
    by_cases hex : 0 < ((m.fields.map (fun f => f.name)).filter
        (fun nm => !(nm ∈ pkF : Bool)
          && !(nm ∈ (m.foreignKeys.map (fun fk => fk.fields)).flatten : Bool))).length
    · simp only [if_pos hex] at hfi
      rw [List.mem_singleton.mp hfi]
      simp [joinTableFinding]
    · simp only [if_neg hex] at hfi
      cases hfi
  · rw [Bool.not_eq_true] at hall
    simp only [hall] at hfi
    cases hfi

/-- C6: in a composite-PK model with at least one non-key field, check2nf emits
exactly one NF2_PARTIAL_DEPENDENCY_SUSPECTED finding (warning, 2NF, field null)
per fk-sourced FD whose determinant is a proper non-empty subset of the PK
fields, and none in any other situation. -/
theorem check2nf_partial_dependency (contract : ConstraintContract)
    (fds : List FunctionalDependency) (m : ModelContract)
    (hm : m ∈ contract.models)
    (hnd : (contract.models.map (fun x => x.name)).Nodup)
    (hwf : ∀ fd, fd ∈ fds → fd.model = m.name → fd.source = FdSource.fk →
      fd.determinant ≠ [] ∧ fd.determinant.Nodup)
    (hpknd : ∀ pk, m.primaryKey = some pk → pk.fields.Nodup) :
    ((check2nf contract fds).countP
        (fun fi => fi.rule = RuleCode.NF2_PARTIAL_DEPENDENCY_SUSPECTED && fi.model = m.name)
      = (match m.primaryKey with
         | some pk =>
           if 1 < pk.fields.length ∧ (∃ f, f ∈ m.fields ∧ ¬ f.name ∈ pk.fields)
           then fds.countP (fun fd => (fdQualifiesSpec m.name pk.fields fd : Bool))
           else 0
         | none => 0)) ∧
    (∀ fi, fi ∈ check2nf contract fds →
      fi.rule = RuleCode.NF2_PARTIAL_DEPENDENCY_SUSPECTED →
      fi.severity = Severity.warning ∧ fi.normalForm = NormalForm.nf2 ∧ fi.field = none) := by
  constructor
  · rw [check2nf_characterization, List.countP_eq_length_filter,
      filter_flatMap_key (check2nfModelFindings contract fds) (fun x => x.name) _
        contract.models m hm hnd
        (fun y _ fi hfi => check2nfModelFindings_model contract fds y fi hfi)
        (fun fi h => by
          simp only [Bool.and_eq_true, decide_eq_true_eq] at h
          exact h.2),
      ← List.countP_eq_length_filter]
    cases hpk : m.primaryKey with
    | none =>
      have hfind := compositePk_find_none contract m hm hnd
        (fun pk2 h12 => by rw [hpk] at h12; cases h12)
      unfold check2nfModelFindings
      rw [hfind]
      rfl
    | some pk =>
      dsimp only
      by_cases hlen : 1 < pk.fields.length
      · have hfind := compositePk_find_some contract m pk hm hnd hpk hlen
        unfold check2nfModelFindings
        rw [hfind]
        dsimp only
        rw [List.countP_append, joinTable_countP_partial_zero, Nat.add_zero]
        by_cases hnk : (m.fields.any (fun f => !(f.name ∈ pk.fields : Bool))) = true
        · have hex : ∃ f, f ∈ m.fields ∧ ¬ f.name ∈ pk.fields := by
            have := List.any_eq_true.mp hnk
            obtain ⟨f, hf, hfp⟩ := this
            exact ⟨f, hf, by simpa using hfp⟩
          rw [if_pos ⟨hlen, hex⟩]
          have hpart : checkPartialDependency m pk.fields fds
              = ((fds.filter (fun fd => fd.model = m.name && fd.source = FdSource.fk)).filter
                  (fun fd => isProperSubsetOfPk fd.determinant pk.fields)).map
                (fun fd => partialDependencyFinding m fd) := by
            unfold checkPartialDependency
            simp only [hnk, Bool.not_true]
            rfl
          rw [hpart]
          have hall : ∀ fi ∈ ((fds.filter
              (fun fd => fd.model = m.name && fd.source = FdSource.fk)).filter
                (fun fd => isProperSubsetOfPk fd.determinant pk.fields)).map
              (fun fd => partialDependencyFinding m fd),
              ((fun fi => fi.rule = RuleCode.NF2_PARTIAL_DEPENDENCY_SUSPECTED
                && fi.model = m.name) fi) = true := by
            intro fi hfi
            obtain ⟨fd, _, heq⟩ := List.mem_map.mp hfi
            rw [← heq]
            simp [partialDependencyFinding]
          rw [List.countP_eq_length.mpr hall, List.length_map, List.filter_filter,
            ← List.countP_eq_length_filter]
          apply List.countP_congr
          intro fd hfd
          simp only [Bool.and_eq_true, decide_eq_true_eq]
          constructor
          · rintro ⟨hproper, hmodel, hsource⟩
            obtain ⟨hne, hdnodup⟩ := hwf fd hfd hmodel hsource
            have hss := (isProperSubsetOfPk_iff fd.determinant pk.fields hdnodup
              (hpknd pk hpk)).mp hproper
            exact ⟨hmodel, hsource, hne, hss⟩
          · rintro ⟨hmodel, hsource, hne, hss⟩
            obtain ⟨_, hdnodup⟩ := hwf fd hfd hmodel hsource
            exact ⟨(isProperSubsetOfPk_iff fd.determinant pk.fields hdnodup
              (hpknd pk hpk)).mpr hss, hmodel, hsource⟩
        · have hnoex : ¬ (1 < pk.fields.length ∧ ∃ f, f ∈ m.fields ∧ ¬ f.name ∈ pk.fields) := by
            rintro ⟨-, f, hf, hfp⟩
            exact hnk (List.any_eq_true.mpr ⟨f, hf, by simpa using hfp⟩)
          rw [if_neg hnoex]
          have hpart : checkPartialDependency m pk.fields fds = [] := by
            unfold checkPartialDependency
            rw [Bool.not_eq_true] at hnk
            simp only [hnk]
            rfl
          rw [hpart]
          rfl
      · have hfind := compositePk_find_none contract m hm hnd
          (fun pk2 h12 => by
            rw [hpk] at h12
            injection h12 with h12
            rw [← h12]
            exact hlen)
        unfold check2nfModelFindings
        rw [hfind]
        dsimp only
        have hnoex : ¬ (1 < pk.fields.length ∧ ∃ f, f ∈ m.fields ∧ ¬ f.name ∈ pk.fields) := by
          rintro ⟨h1, -⟩
          exact hlen h1
        rw [if_neg hnoex]
        rfl
  · intro fi hfi hrule
    rw [check2nf_characterization] at hfi
    obtain ⟨y, hy, hfi2⟩ := List.mem_flatMap.mp hfi
    rcases check2nfModelFindings_cases contract fds y fi hfi2 with ⟨fd, heq⟩ | ⟨extras, heq⟩
    · rw [heq]
      exact ⟨rfl, rfl, rfl⟩
    · rw [heq] at hrule
      cases hrule

/-- Witness for the partial-dependency claim: the two single-column FK subsets
of the composite PK of Enrollment produce exactly two findings. -/
theorem check2nf_partial_dependency_witness :
    (check2nf w6Contract w6Fds).countP
        (fun fi => fi.rule = RuleCode.NF2_PARTIAL_DEPENDENCY_SUSPECTED
          && fi.model = w6Enrollment.name)
      = 2 := by
  have h := (check2nf_partial_dependency w6Contract w6Fds w6Enrollment (by decide) (by decide)
    (by decide) (by decide)).1
  rw [h]
  decide

/-- Partial-dependency findings never count as join-table findings. -/
theorem partial_filter_join_nil (m : ModelContract) (pkF : List String)
    (fds : List FunctionalDependency) :
    (checkPartialDependency m pkF fds).filter
      (fun fi => fi.rule = RuleCode.NF2_JOIN_TABLE_DUPLICATED_ATTR_SUSPECTED
        && fi.model = m.name) = [] := by
  rw [List.filter_eq_nil_iff]
  intro fi hfi
  unfold checkPartialDependency at hfi
  by_cases hnk : (m.fields.any (fun f => !(f.name ∈ pkF : Bool))) = true
  · simp only [hnk, Bool.not_true] at hfi
    have hp2 : ∃ fd, (fd ∈ fds ∧ isProperSubsetOfPk fd.determinant pkF = true
        ∧ fd.model = m.name ∧ fd.source = FdSource.fk)
        ∧ partialDependencyFinding m fd = fi := by simpa using hfi
    obtain ⟨fd, _, heq⟩ := hp2
    rw [← heq]
    simp [partialDependencyFinding]
  · rw [Bool.not_eq_true] at hnk
    simp only [hnk] at hfi
    cases hfi

/-- C7: a composite-PK model whose PK fields are all FK fields yields exactly
one NF2_JOIN_TABLE_DUPLICATED_ATTR_SUSPECTED finding (warning, 2NF, field
null, message listing the extra fields) when a field outside PK and FK fields
exists, and none otherwise. -/
theorem check2nf_join_table (contract : ConstraintContract) (fds : List FunctionalDependency)
    (m : ModelContract) (hm : m ∈ contract.models)
    (hnd : (contract.models.map (fun x => x.name)).Nodup)
    (pk : PrimaryKeyConstraint) (hpk : m.primaryKey = some pk) (hcomp : 1 < pk.fields.length)
    (hallfk : ∀ f, f ∈ pk.fields → f ∈ (m.foreignKeys.map (fun fk => fk.fields)).flatten) :
    ((check2nf contract fds).filter
        (fun fi => fi.rule = RuleCode.NF2_JOIN_TABLE_DUPLICATED_ATTR_SUSPECTED
          && fi.model = m.name)
      = (if 0 < ((m.fields.map (fun f => f.name)).filter
            (fun nm => !(nm ∈ pk.fields : Bool)
              && !(nm ∈ (m.foreignKeys.map (fun fk => fk.fields)).flatten : Bool))).length
         then [joinTableFinding m ((m.fields.map (fun f => f.name)).filter
            (fun nm => !(nm ∈ pk.fields : Bool)
              && !(nm ∈ (m.foreignKeys.map (fun fk => fk.fields)).flatten : Bool)))]
         else [])) ∧
    (∀ extras, (joinTableFinding m extras).severity = Severity.warning ∧
      (joinTableFinding m extras).normalForm = NormalForm.nf2 ∧
      (joinTableFinding m extras).field = none) := by
  constructor
  · rw [check2nf_characterization,
      filter_flatMap_key (check2nfModelFindings contract fds) (fun x => x.name) _
        contract.models m hm hnd
        (fun y _ fi hfi => check2nfModelFindings_model contract fds y fi hfi)
        (fun fi h => by
          simp only [Bool.and_eq_true, decide_eq_true_eq] at h
          exact h.2)]
    unfold check2nfModelFindings
    rw [compositePk_find_some contract m pk hm hnd hpk hcomp]
    dsimp only
    rw [List.filter_append, partial_filter_join_nil, List.nil_append]
    unfold checkJoinTableDuplicatedAttr
    have halltrue : (pk.fields.all
        (fun f => f ∈ (m.foreignKeys.map (fun fk => fk.fields)).flatten)) = true :=
      List.all_eq_true.mpr (fun f hf => decide_eq_true (hallfk f hf))
    simp only [halltrue, Bool.not_true, Bool.false_eq_true, if_false]
    by_cases hex : 0 < ((m.fields.map (fun f => f.name)).filter
        (fun nm => !(nm ∈ pk.fields : Bool)
          && !(nm ∈ (m.foreignKeys.map (fun fk => fk.fields)).flatten : Bool))).length
    · rw [if_pos hex]
      simp [joinTableFinding]
    · rw [if_neg hex]
      rfl
  · intro extras
    exact ⟨rfl, rfl, rfl⟩

/-- Witness for the join-table claim: the grade attribute triggers exactly one
finding on the concrete PostTag contract. -/
theorem check2nf_join_table_witness :
    (check2nf w7Contract []).filter
        (fun fi => fi.rule = RuleCode.NF2_JOIN_TABLE_DUPLICATED_ATTR_SUSPECTED
          && fi.model = w7PostTag.name)
      = [joinTableFinding w7PostTag ["grade"]] := by
  have h := (check2nf_join_table w7Contract [] w7PostTag (by decide) (by decide)
    { fields := ["postId", "tagId"], isComposite := true } rfl (by decide) (by decide)).1
  rw [h]
  rfl

/-- C1 evaluation: on a contract with an uncovered foreign key, the audit
aggregation emits no findings at all, and in particular no FK_MISSING_INDEX
finding, while checkFkIndexes on the same contract emits exactly one. -/
theorem audit_omits_fk_missing_index :
    auditFindings c1Contract none = []
      ∧ (checkFkIndexes c1Contract).map (fun fi => fi.rule) = [RuleCode.FK_MISSING_INDEX] := by
  constructor
  · decide
  · decide

/-- charListLe is total. -/
theorem charListLe_total : ∀ a b : List Char, charListLe a b = true ∨ charListLe b a = true := by
  intro a
  induction a with
  | nil => intro b; exact Or.inl rfl
  | cons x xs ih =>
    intro b
    cases b with
    | nil => exact Or.inr rfl
    | cons y ys =>
      simp only [charListLe]
      by_cases hxy : x.toNat < y.toNat
      · left; simp [hxy]
      · by_cases hyx : y.toNat < x.toNat
        · right; simp [hyx]
        · rcases ih ys with h | h
          · left; simp [hxy, hyx, h]
          · right; simp [hxy, hyx, h]

/-- charListLe is transitive. -/
theorem charListLe_trans : ∀ a b c : List Char,
    charListLe a b = true → charListLe b c = true → charListLe a c = true := by
  intro a
  induction a with
  | nil => intro b c _ _; rfl
  | cons x xs ih =>
    intro b c h1 h2
    cases b with
    | nil => simp [charListLe] at h1
    | cons y ys =>
      cases c with
      | nil => simp [charListLe] at h2
      | cons z zs =>
        simp only [charListLe] at h1 h2 ⊢
        by_cases hxy : x.toNat < y.toNat <;> by_cases hyz : y.toNat < z.toNat <;>
          by_cases hyx : y.toNat < x.toNat <;> by_cases hzy : z.toNat < y.toNat <;>
            simp [hxy, hyz, hyx, hzy] at h1 h2 ⊢ <;>
              first
                | omega
                | exact ih ys zs h1 h2
                | exact Or.inr ⟨by omega, ih ys zs h1 h2⟩

/-- charListLe is antisymmetric. -/
theorem charListLe_antisymm : ∀ a b : List Char,
    charListLe a b = true → charListLe b a = true → a = b := by
  intro a
  induction a with
  | nil =>
    intro b _ h2
    cases b with
    | nil => rfl
    | cons y ys => simp [charListLe] at h2
  | cons x xs ih =>
    intro b h1 h2
    cases b with
    | nil => simp [charListLe] at h1
    | cons y ys =>
      simp only [charListLe] at h1 h2
      by_cases hxy : x.toNat < y.toNat <;> by_cases hyx : y.toNat < x.toNat <;>
        simp [hxy, hyx] at h1 h2
      · omega
      · have hn : x.toNat = y.toNat := by omega
        have hval : x.val = y.val := UInt32.toNat.inj hn
        have hchar : x = y := Char.ext hval
        rw [hchar, ih ys h1 h2]

/-- strLe is total. -/
theorem strLe_total (a b : String) : strLe a b = true ∨ strLe b a = true :=
  charListLe_total a.data b.data

/-- strLe is transitive. -/
theorem strLe_trans (a b c : String) :
    strLe a b = true → strLe b c = true → strLe a c = true :=
  charListLe_trans a.data b.data c.data

/-- strLe is antisymmetric. -/
theorem strLe_antisymm (a b : String) :
    strLe a b = true → strLe b a = true → a = b := by
  intro h1 h2
  have hd := charListLe_antisymm a.data b.data h1 h2
  cases a with
  | mk da =>
    cases b with
    | mk db => exact congrArg String.mk hd

/-- Sorting by pairwise-distinct keys is invariant under permutation. -/
theorem sortBy_eq_of_perm {α : Type} (key : α → String) {l₁ l₂ : List α}
    (hp : l₁.Perm l₂) (hd : l₁.Pairwise (fun a b => key a ≠ key b)) :
    sortBy key l₁ = sortBy key l₂ := by
  unfold sortBy
  haveI : IsTotal α (fun a b => strLe (key a) (key b) = true) :=
    ⟨fun a b => strLe_total (key a) (key b)⟩
  haveI : IsTrans α (fun a b => strLe (key a) (key b) = true) :=
    ⟨fun a b c => strLe_trans (key a) (key b) (key c)⟩
  have hs₁ := List.sorted_insertionSort (fun a b => strLe (key a) (key b) = true) l₁
  have hs₂ := List.sorted_insertionSort (fun a b => strLe (key a) (key b) = true) l₂
  have hp₁ := List.perm_insertionSort (fun a b => strLe (key a) (key b) = true) l₁
  have hp₂ := List.perm_insertionSort (fun a b => strLe (key a) (key b) = true) l₂
  have hperm := hp₁.trans (hp.trans hp₂.symm)
  have hsymm : ∀ {x y : α}, key x ≠ key y → key y ≠ key x := fun h e => h e.symm
  have hd₁ := (List.Perm.pairwise_iff hsymm hp₁).mpr hd
  have hd₂ := (List.Perm.pairwise_iff hsymm hperm).mp hd₁
  have hlt₁ := List.Pairwise.and hs₁ hd₁
  have hlt₂ := List.Pairwise.and hs₂ hd₂
  exact @List.eq_of_perm_of_sorted α
    (fun a b => strLe (key a) (key b) = true ∧ key a ≠ key b)
    ⟨fun a b h1 h2 => absurd (strLe_antisymm _ _ h1.1 h2.1) h1.2⟩
    _ _ hperm hlt₁ hlt₂

/-- Componentwise characterization of the definition-loop fold. -/
theorem foldl_applyCreateDef (defs : List CreateDef) : ∀ (ts : TableState) (l : List String),
    defs.foldl applyCreateDef (ts, l) =
      ({ fields := ts.fields ++ defs.flatMap columnFieldsOfDef
         primaryKey := pkOfDefsFrom defs ts.primaryKey
         uniqueConstraints := ts.uniqueConstraints ++ defs.flatMap uniquesOfDef
         indexes := ts.indexes
         foreignKeys := ts.foreignKeys ++ defs.flatMap fksOfDef },
       l ++ defs.flatMap inlinePksOfDef) := by
  induction defs with
  | nil => intro ts l; simp [pkOfDefsFrom]
  | cons d rest ih =>
    intro ts l
    rw [List.foldl_cons]
    show rest.foldl applyCreateDef
      ({ fields := ts.fields ++ columnFieldsOfDef d
         primaryKey := pkUpdateOfDef d ts.primaryKey
         uniqueConstraints := ts.uniqueConstraints ++ uniquesOfDef d
         indexes := ts.indexes
         foreignKeys := ts.foreignKeys ++ fksOfDef d }, l ++ inlinePksOfDef d) = _
    rw [ih]
    simp [pkOfDefsFrom, List.append_assoc]

/-- Componentwise characterization of processCreateTable. -/
theorem runCreateTable_eq (ts : TableState) (defs : List CreateDef) :
    runCreateTable ts defs =
      { fields := ts.fields ++ defs.flatMap columnFieldsOfDef
        primaryKey := finalPkOfDefs defs ts.primaryKey
        uniqueConstraints := ts.uniqueConstraints ++ defs.flatMap uniquesOfDef
        indexes := ts.indexes
        foreignKeys := ts.foreignKeys ++ defs.flatMap fksOfDef } := by
  unfold runCreateTable
  rw [foldl_applyCreateDef]
  unfold applyInlinePk finalPkOfDefs
  simp only [List.nil_append]
  by_cases h : ((pkOfDefsFrom defs ts.primaryKey).isNone
      && !(defs.flatMap inlinePksOfDef).isEmpty) = true
  · rw [if_pos h, if_pos h]
  · rw [if_neg h, if_neg h]

/-- Componentwise characterization of one statement application. -/
theorem applyStmtTo_eq (ts : TableState) (s : SqlStmt) :
    applyStmtTo ts s =
      { fields := ts.fields ++ stmtFieldContribs s
        primaryKey := stmtPkUpdate s ts.primaryKey
        uniqueConstraints := ts.uniqueConstraints ++ stmtUniqueContribs s
        indexes := ts.indexes ++ stmtIndexContribs s
        foreignKeys := ts.foreignKeys ++ stmtFkContribs s } := by
  cases s with
  | createTable n defs =>
    show runCreateTable ts defs = _
    rw [runCreateTable_eq]
    simp [stmtFieldContribs, stmtUniqueContribs, stmtIndexContribs, stmtFkContribs, stmtPkUpdate]
  | createIndex u iname n fs =>
    show runCreateIndex ts u iname fs = _
    cases u <;>
      simp [runCreateIndex, stmtFieldContribs, stmtUniqueContribs, stmtIndexContribs,
        stmtFkContribs, stmtPkUpdate]

/-- Componentwise characterization of the statement fold on one table state. -/
theorem foldl_applyStmtTo (r : List SqlStmt) : ∀ ts : TableState,
    r.foldl applyStmtTo ts =
      { fields := ts.fields ++ r.flatMap stmtFieldContribs
        primaryKey := pkFoldStmts r ts.primaryKey
        uniqueConstraints := ts.uniqueConstraints ++ r.flatMap stmtUniqueContribs
        indexes := ts.indexes ++ r.flatMap stmtIndexContribs
        foreignKeys := ts.foreignKeys ++ r.flatMap stmtFkContribs } := by
  induction r with
  | nil => intro ts; simp [pkFoldStmts]
  | cons s rest ih =>
    intro ts
    rw [List.foldl_cons, applyStmtTo_eq, ih]
    simp [pkFoldStmts, List.append_assoc]

/-- Lookup after an updateTable. -/
theorem lookupTM_updateTable : ∀ (tm : List (String × TableState)) (n : String)
    (f : TableState → TableState) (t : String),
    lookupTM (updateTable tm n f) t =
      if n = t then some (f ((lookupTM tm t).getD emptyTableState)) else lookupTM tm t := by
  intro tm
  induction tm with
  | nil =>
    intro n f t
    by_cases h : n = t <;> simp [updateTable, lookupTM, h]
  | cons p rest ih =>
    intro n f t
    obtain ⟨k, ts⟩ := p
    by_cases hkn : k = n
    · subst hkn
      by_cases hkt : k = t <;> simp [updateTable, lookupTM, hkt]
    · by_cases hkt : k = t
      · subst hkt
        have hnt : ¬n = k := fun h => hkn h.symm
        simp [updateTable, lookupTM, hkn, hnt]
      · simp [updateTable, lookupTM, hkn, hkt, ih]

/-- Lookup after one processed statement. -/
theorem lookupTM_processStmt (tm : List (String × TableState)) (s : SqlStmt) (t : String) :
    lookupTM (processStmt tm s) t =
      if stmtTableName s = t then some (applyStmtTo ((lookupTM tm t).getD emptyTableState) s)
      else lookupTM tm t := by
  cases s with
  | createTable n defs =>
    show lookupTM (updateTable tm n _) t = _
    rw [lookupTM_updateTable]
    rfl
  | createIndex u iname n fs =>
    show lookupTM (updateTable tm n _) t = _
    rw [lookupTM_updateTable]
    rfl

/-- Lookup after the whole statement fold is the fold of the statements that
touch the table. -/
theorem lookupTM_foldl : ∀ (stmts : List SqlStmt) (tm : List (String × TableState)) (t : String),
    lookupTM (stmts.foldl processStmt tm) t =
      (stmts.filter (fun s => stmtTableName s = t)).foldl
        (fun o s => some (applyStmtTo (o.getD emptyTableState) s)) (lookupTM tm t) := by
  intro stmts
  induction stmts with
  | nil => intro tm t; rfl
  | cons s rest ih =>
    intro tm t
    rw [List.foldl_cons, ih]
    by_cases h : stmtTableName s = t
    · rw [List.filter_cons_of_pos (by simp [h]), List.foldl_cons, lookupTM_processStmt, if_pos h]
    · rw [List.filter_cons_of_neg (by simp [h]), lookupTM_processStmt, if_neg h]

/-- The option fold over a nonempty statement list starting from a missing
entry creates the entry and folds over it. -/
theorem lookupFold_ne_nil : ∀ (r : List SqlStmt), r ≠ [] →
    r.foldl (fun o s => some (applyStmtTo (o.getD emptyTableState) s)) none =
      some (r.foldl applyStmtTo emptyTableState) := by
  have hsome : ∀ (r : List SqlStmt) (ts : TableState),
      r.foldl (fun o s => some (applyStmtTo (o.getD emptyTableState) s)) (some ts) =
        some (r.foldl applyStmtTo ts) := by
    intro r
    induction r with
    | nil => intro ts; rfl
    | cons s rest ih => intro ts; rw [List.foldl_cons, List.foldl_cons]; exact ih _
  intro r hne
  cases r with
  | nil => exact absurd rfl hne
  | cons s rest =>
    rw [List.foldl_cons, List.foldl_cons]
    exact hsome rest _

/-- Keys after an updateTable: unchanged if present, appended otherwise. -/
theorem keysTM_updateTable : ∀ (tm : List (String × TableState)) (n : String)
    (f : TableState → TableState),
    keysTM (updateTable tm n f) =
      if n ∈ keysTM tm then keysTM tm else keysTM tm ++ [n] := by
  intro tm
  induction tm with
  | nil => intro n f; simp [updateTable, keysTM]
  | cons p rest ih =>
    intro n f
    obtain ⟨k, ts⟩ := p
    by_cases h : k = n
    · subst h; simp [updateTable, keysTM]
    · have hnk : ¬n = k := fun e => h e.symm
      have hupd : updateTable ((k, ts) :: rest) n f = (k, ts) :: updateTable rest n f := by
        simp [updateTable, h]
      rw [hupd]
      show k :: keysTM (updateTable rest n f) = _
      rw [ih n f]
      by_cases hm : n ∈ keysTM rest
      · rw [if_pos hm]
        show k :: keysTM rest =
          if n ∈ k :: keysTM rest then k :: keysTM rest else (k :: keysTM rest) ++ [n]
        rw [if_pos (List.mem_cons.mpr (Or.inr hm))]
      · rw [if_neg hm]
        show k :: (keysTM rest ++ [n]) =
          if n ∈ k :: keysTM rest then k :: keysTM rest else (k :: keysTM rest) ++ [n]
        rw [if_neg (fun hc => (List.mem_cons.mp hc).elim hnk hm)]
        rfl

/-- Keys after one processed statement. -/
theorem keysTM_processStmt (tm : List (String × TableState)) (s : SqlStmt) :
    keysTM (processStmt tm s) =
      if stmtTableName s ∈ keysTM tm then keysTM tm else keysTM tm ++ [stmtTableName s] := by
  cases s with
  | createTable n defs => exact keysTM_updateTable tm n _
  | createIndex u iname n fs => exact keysTM_updateTable tm n _

/-- The statement fold keeps the key list duplicate-free. -/
theorem keysTM_foldl_nodup : ∀ (stmts : List SqlStmt) (tm : List (String × TableState)),
    (keysTM tm).Nodup → (keysTM (stmts.foldl processStmt tm)).Nodup := by
  intro stmts
  induction stmts with
  | nil => intro tm h; exact h
  | cons s rest ih =>
    intro tm h
    rw [List.foldl_cons]
    apply ih
    rw [keysTM_processStmt]
    by_cases hm : stmtTableName s ∈ keysTM tm
    · simp [hm, h]
    · simp [hm, List.nodup_append, h, List.disjoint_singleton]

/-- With duplicate-free keys, membership in the table map is lookup. -/
theorem mem_iff_lookupTM : ∀ (tm : List (String × TableState)), (keysTM tm).Nodup →
    ∀ (k : String) (ts : TableState), ((k, ts) ∈ tm ↔ lookupTM tm k = some ts) := by
  intro tm
  induction tm with
  | nil => intro _ k ts; simp [lookupTM]
  | cons p rest ih =>
    intro hnd k ts
    obtain ⟨k₀, t₀⟩ := p
    have hnd₀ : k₀ ∉ keysTM rest ∧ (keysTM rest).Nodup := by
      simpa [keysTM] using hnd
    by_cases h : k₀ = k
    · subst h
      have hlk : lookupTM ((k₀, t₀) :: rest) k₀ = some t₀ := by
        show (if k₀ = k₀ then some t₀ else lookupTM rest k₀) = some t₀
        rw [if_pos rfl]
      rw [hlk]
      constructor
      · intro hmem
        rcases List.mem_cons.mp hmem with heq | hmem
        · rw [((Prod.mk.injEq _ _ _ _).mp heq).2]
        · exact absurd (List.mem_map.mpr ⟨(k₀, ts), hmem, rfl⟩) hnd₀.1
      · intro heq
        have ht : t₀ = ts := by rw [Option.some.injEq] at heq; exact heq
        exact List.mem_cons.mpr (Or.inl (by rw [ht]))
    · simp only [lookupTM, if_neg h, List.mem_cons]
      rw [ih hnd₀.2 k ts]
      constructor
      · rintro (heq | hmem)
        · exact absurd ((Prod.mk.injEq _ _ _ _).mp heq).1.symm h
        · exact hmem
      · exact Or.inr

/-- A contribution empty outside CREATE TABLE is computed on the CREATE TABLE
statements alone. -/
theorem flatMap_filter_isCT {β : Type} (f : SqlStmt → List β)
    (hf : ∀ s, isCT s = false → f s = []) :
    ∀ r : List SqlStmt, r.flatMap f = (r.filter isCT).flatMap f := by
  intro r
  induction r with
  | nil => rfl
  | cons s rest ih =>
    cases hs : isCT s
    · rw [List.flatMap_cons, hf s hs, List.filter_cons_of_neg (by simp [hs]), List.nil_append, ih]
    · rw [List.flatMap_cons, List.filter_cons_of_pos hs, List.flatMap_cons, ih]

/-- The primary-key fold only moves on CREATE TABLE statements. -/
theorem pkFoldStmts_filter : ∀ (r : List SqlStmt) (cur : Option PrimaryKeyConstraint),
    pkFoldStmts r cur = pkFoldStmts (r.filter isCT) cur := by
  intro r
  induction r with
  | nil => intro cur; rfl
  | cons s rest ih =>
    intro cur
    cases s with
    | createTable n defs =>
      rw [List.filter_cons_of_pos rfl]
      show pkFoldStmts rest _ = pkFoldStmts _ _
      exact ih _
    | createIndex u iname n fs =>
      rw [List.filter_cons_of_neg (by simp [isCT])]
      show pkFoldStmts rest cur = _
      exact ih cur

/-- A permutation of a list with at most one element is the identity. -/
theorem perm_eq_of_length_le_one {α : Type} {l₁ l₂ : List α}
    (hp : l₁.Perm l₂) (h : l₁.length ≤ 1) : l₁ = l₂ := by
  cases l₁ with
  | nil => exact (List.perm_nil.mp hp.symm).symm
  | cons a l₁ =>
    cases l₁ with
    | nil => exact List.singleton_perm.mp hp
    | cons b l₁ => simp at h

/-- Counting CREATE TABLE statements for a table is counting the name in the
CREATE TABLE name list. -/
theorem countP_isCT_filter : ∀ (l : List SqlStmt) (t : String),
    (l.filter (fun s => stmtTableName s = t)).countP isCT = (l.filterMap ctNameOf).count t := by
  intro l
  induction l with
  | nil => intro t; rfl
  | cons s rest ih =>
    intro t
    cases s with
    | createTable n defs =>
      by_cases h : n = t <;>
        simp [List.filter_cons, List.filterMap_cons, stmtTableName, ctNameOf, isCT,
          List.countP_cons, List.count_cons, h] <;>
          exact ih t
    | createIndex u iname n fs =>
      by_cases h : n = t <;>
        simp [List.filter_cons, List.filterMap_cons, stmtTableName, ctNameOf, isCT,
          List.countP_cons, h] <;>
          exact ih t

/-- Per-table invariance: under the well-formedness hypotheses, the sorted
model built for any table name is the same for permuted statement lists. -/
theorem tableModel_eq (l₁ l₂ : List SqlStmt) (t : String)
    (hp : l₁.Perm l₂)
    (hct : (l₁.filterMap ctNameOf).Nodup)
    (hu : t ∈ l₁.map stmtTableName →
      ((l₁.filter (fun s => stmtTableName s = t)).flatMap stmtUniqueContribs).Pairwise
        (fun a b => joinKey a.fields ≠ joinKey b.fields))
    (hi : t ∈ l₁.map stmtTableName →
      ((l₁.filter (fun s => stmtTableName s = t)).flatMap stmtIndexContribs).Pairwise
        (fun a b => joinKey a.fields ≠ joinKey b.fields)) :
    (lookupTM (l₁.foldl processStmt []) t).map (mkModelContract t) =
      (lookupTM (l₂.foldl processStmt []) t).map (mkModelContract t) := by
  have h₁ := lookupTM_foldl l₁ [] t
  have h₂ := lookupTM_foldl l₂ [] t
  have hnil : lookupTM [] t = none := rfl
  rw [hnil] at h₁ h₂
  rw [h₁, h₂]
  have hpr : (l₁.filter (fun s => stmtTableName s = t)).Perm
      (l₂.filter (fun s => stmtTableName s = t)) := hp.filter _
  by_cases hr : l₁.filter (fun s => stmtTableName s = t) = []
  · have hr₂ : l₂.filter (fun s => stmtTableName s = t) = [] := by
      rw [hr] at hpr
      exact List.perm_nil.mp hpr.symm
    rw [hr, hr₂]
  · have hr₂ : l₂.filter (fun s => stmtTableName s = t) ≠ [] := by
      intro h0
      rw [h0] at hpr
      exact hr (List.perm_nil.mp hpr)
    rw [lookupFold_ne_nil _ hr, lookupFold_ne_nil _ hr₂, Option.map_some', Option.map_some']
    refine congrArg some ?_
    have htm : t ∈ l₁.map stmtTableName := by
      obtain ⟨s, hs⟩ := List.exists_mem_of_ne_nil _ hr
      have hs2 := List.mem_filter.mp hs
      exact List.mem_map.mpr ⟨s, hs2.1, by simpa using hs2.2⟩
    have hcnt : (l₁.filter (fun s => stmtTableName s = t)).countP isCT ≤ 1 := by
      rw [countP_isCT_filter]
      exact List.nodup_iff_count_le_one.mp hct t
    have hfeq : (l₁.filter (fun s => stmtTableName s = t)).filter isCT =
        (l₂.filter (fun s => stmtTableName s = t)).filter isCT := by
      refine perm_eq_of_length_le_one (hpr.filter isCT) ?_
      rw [← List.countP_eq_length_filter]
      exact hcnt
    have hfnil : ∀ s, isCT s = false → stmtFieldContribs s = [] := by
      intro s hs
      cases s with
      | createTable n defs => simp [isCT] at hs
      | createIndex u iname n fs => rfl
    have hknil : ∀ s, isCT s = false → stmtFkContribs s = [] := by
      intro s hs
      cases s with
      | createTable n defs => simp [isCT] at hs
      | createIndex u iname n fs => rfl
    rw [foldl_applyStmtTo, foldl_applyStmtTo]
    simp only [emptyTableState, List.nil_append]
    unfold mkModelContract
    simp only [ModelContract.mk.injEq]
    refine ⟨trivial, ?_, ?_, ?_, ?_, ?_⟩
    · refine congrArg _ ?_
      rw [flatMap_filter_isCT stmtFieldContribs hfnil, hfeq,
        ← flatMap_filter_isCT stmtFieldContribs hfnil]
    · rw [pkFoldStmts_filter, hfeq, ← pkFoldStmts_filter]
    · exact sortBy_eq_of_perm _ (hpr.flatMap_right stmtUniqueContribs) (hu htm)
    · exact sortBy_eq_of_perm _ (hpr.flatMap_right stmtIndexContribs) (hi htm)
    · refine congrArg _ ?_
      rw [flatMap_filter_isCT stmtFkContribs hknil, hfeq,
        ← flatMap_filter_isCT stmtFkContribs hknil]

/-- C4: parseSqlString is invariant under permutation of the top-level
statements because every output component is sorted (models by name, fields by
name, constraints by their concatenated field list). As stated the claim is
refuted by the counterexample below: the sort is a stable insertion sort on
the listed keys only, so two constraints of one table with the same field
list but different names keep their declaration order. The amended claim
proved here adds the well-formedness hypotheses under which the property
holds: each table is created by at most one CREATE TABLE statement, and
within each table the unique constraints, respectively the indexes, have
pairwise distinct concatenated field lists. -/
theorem parseSqlStatements_perm (l₁ l₂ : List SqlStmt)
    (hp : l₁.Perm l₂)
    (hct : (l₁.filterMap ctNameOf).Nodup)
    (hu : ∀ t ∈ l₁.map stmtTableName,
      ((l₁.filter (fun s => stmtTableName s = t)).flatMap stmtUniqueContribs).Pairwise
        (fun a b => joinKey a.fields ≠ joinKey b.fields))
    (hi : ∀ t ∈ l₁.map stmtTableName,
      ((l₁.filter (fun s => stmtTableName s = t)).flatMap stmtIndexContribs).Pairwise
        (fun a b => joinKey a.fields ≠ joinKey b.fields)) :
    parseSqlStatements l₁ = parseSqlStatements l₂ := by
  have hlook : ∀ t : String,
      (lookupTM (l₁.foldl processStmt []) t).map (mkModelContract t) =
        (lookupTM (l₂.foldl processStmt []) t).map (mkModelContract t) :=
    fun t => tableModel_eq l₁ l₂ t hp hct (hu t) (hi t)
  have hk₁ : (keysTM (l₁.foldl processStmt [])).Nodup :=
    keysTM_foldl_nodup l₁ [] (by simp [keysTM])
  have hk₂ : (keysTM (l₂.foldl processStmt [])).Nodup :=
    keysTM_foldl_nodup l₂ [] (by simp [keysTM])
  have hnames : ∀ fm : List (String × TableState),
      (fm.map (fun p => mkModelContract p.1 p.2)).map (fun m => m.name) = keysTM fm := by
    intro fm
    rw [List.map_map]
    rfl
  have hnd₁ : ((l₁.foldl processStmt []).map (fun p => mkModelContract p.1 p.2)).Nodup := by
    refine List.Nodup.of_map (fun m => m.name) ?_
    rw [hnames]
    exact hk₁
  have hnd₂ : ((l₂.foldl processStmt []).map (fun p => mkModelContract p.1 p.2)).Nodup := by
    refine List.Nodup.of_map (fun m => m.name) ?_
    rw [hnames]
    exact hk₂
  have hmm : ∀ m, m ∈ (l₁.foldl processStmt []).map (fun p => mkModelContract p.1 p.2) ↔
      m ∈ (l₂.foldl processStmt []).map (fun p => mkModelContract p.1 p.2) := by
    intro m
    simp only [List.mem_map]
    constructor
    · rintro ⟨⟨k, ts⟩, hmem, hmk⟩
      have hlk : lookupTM (l₁.foldl processStmt []) k = some ts :=
        (mem_iff_lookupTM _ hk₁ k ts).mp hmem
      have hh := hlook k
      rw [hlk, Option.map_some'] at hh
      obtain ⟨ts₂, hlk₂, hmk₂⟩ := Option.map_eq_some'.mp hh.symm
      exact ⟨(k, ts₂), (mem_iff_lookupTM _ hk₂ k ts₂).mpr hlk₂, by rw [← hmk]; exact hmk₂⟩
    · rintro ⟨⟨k, ts⟩, hmem, hmk⟩
      have hlk : lookupTM (l₂.foldl processStmt []) k = some ts :=
        (mem_iff_lookupTM _ hk₂ k ts).mp hmem
      have hh := hlook k
      rw [hlk, Option.map_some'] at hh
      obtain ⟨ts₂, hlk₂, hmk₂⟩ := Option.map_eq_some'.mp hh
      exact ⟨(k, ts₂), (mem_iff_lookupTM _ hk₁ k ts₂).mpr hlk₂, by rw [← hmk]; exact hmk₂⟩
  have hpm := (List.perm_ext_iff_of_nodup hnd₁ hnd₂).mpr hmm
  have hd : ((l₁.foldl processStmt []).map (fun p => mkModelContract p.1 p.2)).Pairwise
      (fun a b => a.name ≠ b.name) := by
    have hmapn := hk₁
    rw [← hnames] at hmapn
    exact List.pairwise_map.mp hmapn
  unfold parseSqlStatements
  exact congrArg ConstraintContract.mk (sortBy_eq_of_perm (fun m => m.name) hpm hd)

/-- Counterexample to C4 as stated: two CREATE INDEX statements on the same
field list have equal sort keys, so the stable sort keeps their declaration
order and swapping them changes the parsed contract. -/
theorem parseSqlStatements_order_counterexample :
    [c4Table, c4IdxA, c4IdxB].Perm [c4Table, c4IdxB, c4IdxA] ∧
      parseSqlStatements [c4Table, c4IdxA, c4IdxB] ≠
        parseSqlStatements [c4Table, c4IdxB, c4IdxA] := by
  decide

/-- Witness for the amended C4 theorem on a concrete permuted pair. -/
theorem parseSqlStatements_perm_witness :
    w4L1.Perm w4L2 ∧ parseSqlStatements w4L1 = parseSqlStatements w4L2 :=
  ⟨by decide, parseSqlStatements_perm w4L1 w4L2 (by decide) (by decide) (by decide) (by decide)⟩
